import Mathlib

/-!
# UART hardware abstraction layer for the ATmega328: receive ring buffer

A shallow embedding of `hal_uart.c` (with `hal_uart.h`, `hal_definitions.h`).

* The file-scope variables of `hal_uart.c` are the fields of `State`, together
  with the device registers the driver programs, the number of live heap
  blocks obtained from `calloc`, and the bytes handed to the transmitter.
* `uint8_t` and `uint32_t` arithmetic is arithmetic on `Nat` with an explicit
  `% 256` or `% 4294967296` at every increment.
* A caller's array (`Byte *`) is a `List Byte`; a store `str[i] = ch` is
  `List.set`.  A caller's scalar out-parameter is passed in and returned.
* A division by zero is undefined behaviour in C: the operation that evaluates
  it returns `none`.
-/

namespace HalUart

/-- A `Byte` (`typedef uint8_t Byte`): the driver only stores, copies and
compares data bytes, so the value is carried unchanged. -/
abbrev Byte := Nat

/-- The enumeration `hal_error` of `hal_definitions.h`. -/
inductive hal_error where
  | HAL_NO_ERROR
  | HAL_FAIL
  | HAL_INV_PARAMS
  | HAL_NOT_AVAIL
  deriving DecidableEq, Repr

open hal_error

/-- The enumerator `NO_PARITY = 'N'`. -/
def NO_PARITY : Nat := 78

/-- The enumerator `EVEN_PARITY = 'E'`. -/
def EVEN_PARITY : Nat := 69

/-- The enumerator `ODD_PARITY = 'O'`. -/
def ODD_PARITY : Nat := 79

/-- The macro `MAX_HAL_UART_BUFF_SIZE` of `hal_uart.h`. -/
def MAX_HAL_UART_BUFF_SIZE : Nat := 200

/-- The structure `hal_uart_config` of `hal_uart.h`: `_baud` is a `uint16_t`,
`_parity` a `hal_parity` (an enumeration, so any integer value can be stored in
it), `_stopBits` and `_buffSize` are `uint8_t`. -/
structure hal_uart_config where
  _baud : Nat
  _parity : Nat
  _stopBits : Nat
  _buffSize : Nat
  deriving DecidableEq, Repr

/-! Bit positions of the ATmega328 USART registers (`avr/io.h`). -/

/-- Bit `UPM00` of `UCSR0C`. -/
def UPM00 : Nat := 4
/-- Bit `UPM01` of `UCSR0C`. -/
def UPM01 : Nat := 5
/-- Bit `USBS0` of `UCSR0C`. -/
def USBS0 : Nat := 3
/-- Bit `UCSZ00` of `UCSR0C`. -/
def UCSZ00 : Nat := 1
/-- Bit `UCSZ01` of `UCSR0C`. -/
def UCSZ01 : Nat := 2
/-- Bit `RXEN0` of `UCSR0B`. -/
def RXEN0 : Nat := 4
/-- Bit `TXEN0` of `UCSR0B`. -/
def TXEN0 : Nat := 3
/-- Bit `RXCIE0` of `UCSR0B`. -/
def RXCIE0 : Nat := 7

/-- The driver state: the file-scope variables of `hal_uart.c`
(`rxBuffer` is `none` for `NULL` and otherwise the contents of the block it
points to), the count `live` of heap blocks obtained from `calloc` and not yet
freed, the device registers written by the driver, the global interrupt enable
flag, and the bytes written to the transmit data register. -/
structure State where
  rxBuffer : Option (List Byte)
  rxBuffSize : Nat
  inPos : Nat
  outPos : Nat
  filled : Nat
  num_overflows : Nat
  ind : Nat
  hal_uart_driver_installed : Bool
  live : Nat
  UCSR0B : Nat
  UCSR0C : Nat
  UBRR0L : Nat
  UBRR0H : Nat
  SREG_I : Bool
  tx : List Byte
  deriving DecidableEq, Repr

/-- The state at program start: every static variable is zero, `rxBuffer` is
`NULL`, the registers hold their reset values. -/
def State.boot : State :=
  { rxBuffer := none, rxBuffSize := 0, inPos := 0, outPos := 0, filled := 0,
    num_overflows := 0, ind := 0, hal_uart_driver_installed := false, live := 0,
    UCSR0B := 0, UCSR0C := 6, UBRR0L := 0, UBRR0H := 0, SREG_I := false, tx := [] }

/-- The read `rxBuffer[i]`. -/
def State.rxRead (s : State) (i : Nat) : Byte :=
  (s.rxBuffer.getD []).getD i 0

/-- The receive interrupt service routine `ISR(USART_RX_vect)`; `UDR0` is the
byte in the receive data register when the interrupt fires. -/
def ISR_USART_RX (UDR0 : Byte) (s : State) : State :=
  if s.hal_uart_driver_installed then
    if s.filled < s.rxBuffSize then
      let inPos1 := (s.inPos + 1) % 256
      { s with
        rxBuffer := s.rxBuffer.map (fun b => b.set s.inPos UDR0)
        filled := (s.filled + 1) % 256
        inPos := if inPos1 = s.rxBuffSize then 0 else inPos1 }
    else
      { s with num_overflows := (s.num_overflows + 1) % 4294967296 }
  else s

/-- The parity `switch` of `hal_uart_driver_install` applied to `ucsrc`;
`none` is the `default:` label. -/
def parity_ucsrc (ucsrc : Nat) (parity : Nat) : Option Nat :=
  if parity = NO_PARITY then
    some (ucsrc &&& (255 ^^^ ((1 <<< UPM01) ||| (1 <<< UPM00))))
  else if parity = EVEN_PARITY then
    some ((ucsrc ||| (1 <<< UPM01)) &&& (255 ^^^ (1 <<< UPM00)))
  else if parity = ODD_PARITY then
    some (ucsrc ||| ((1 <<< UPM01) ||| (1 <<< UPM00)))
  else none

/-- The stop-bit `if` of `hal_uart_driver_install` applied to `ucsrc`. -/
def stop_ucsrc (ucsrc : Nat) (stopBits : Nat) : Nat :=
  if stopBits = 2 then ucsrc ||| (1 <<< USBS0)
  else ucsrc &&& (255 ^^^ (1 <<< USBS0))

/-- The macro `BAUD_PRESCALER`, `((F_CPU/(config._baud*16UL)))-1`, in unsigned
32-bit arithmetic; `F_CPU` is the clock frequency the build defines.  The
division by zero is `none`. -/
def BAUD_PRESCALER (F_CPU : Nat) (config : hal_uart_config) : Option Nat :=
  let divisor := (config._baud * 16) % 4294967296
  if divisor = 0 then none
  else some (((F_CPU % 4294967296) / divisor + 4294967295) % 4294967296)

/-- The function `hal_uart_driver_install`.  `calloc_ok` says whether `calloc` returns
a block; the block is zero-filled and has `config._buffSize` bytes. -/
def hal_uart_driver_install (F_CPU : Nat) (calloc_ok : Bool) (config : hal_uart_config)
    (s : State) : Option (hal_error × State) :=
  let s0 : State :=
    { s with
      hal_uart_driver_installed := false, rxBuffSize := 0, inPos := 0, outPos := 0,
      filled := 0, num_overflows := 0 }
  if config._buffSize > MAX_HAL_UART_BUFF_SIZE then
    some (HAL_INV_PARAMS, s0)
  else if calloc_ok = false then
    some (HAL_FAIL, { s0 with rxBuffer := none })
  else
    let s1 : State :=
      { s0 with rxBuffer := some (List.replicate config._buffSize 0), live := s0.live + 1 }
    match parity_ucsrc 6 config._parity with
    | none => some (HAL_INV_PARAMS, { s1 with rxBuffer := none, live := s1.live - 1 })
    | some ucsrc0 =>
      let ucsrc := stop_ucsrc ucsrc0 config._stopBits ||| ((1 <<< UCSZ00) ||| (1 <<< UCSZ01))
      match BAUD_PRESCALER F_CPU config with
      | none => none
      | some p =>
        some (HAL_NO_ERROR,
          { s1 with
            UCSR0B := s1.UCSR0B ||| ((1 <<< RXEN0) ||| (1 <<< TXEN0) ||| (1 <<< RXCIE0))
            UCSR0C := ucsrc
            UBRR0L := p % 256
            UBRR0H := (p >>> 8) % 256
            rxBuffSize := config._buffSize
            hal_uart_driver_installed := true
            SREG_I := true })

/-- The function `hal_uart_driver_uninstall`; `free(NULL)` releases nothing. -/
def hal_uart_driver_uninstall (s : State) : hal_error × State :=
  if s.hal_uart_driver_installed then
    (HAL_NO_ERROR,
      { s with
        UCSR0B := s.UCSR0B &&& (255 ^^^ ((1 <<< RXEN0) ||| (1 <<< TXEN0) ||| (1 <<< RXCIE0)))
        live := if s.rxBuffer.isSome then s.live - 1 else s.live
        rxBuffer := none
        hal_uart_driver_installed := false, rxBuffSize := 0, inPos := 0, outPos := 0,
        filled := 0, num_overflows := 0 })
  else (HAL_NO_ERROR, s)

/-- The function `hal_uart_get_byte`; `byt` is the value at the caller's location
before the call, the third component its value after the call. -/
def hal_uart_get_byte (s : State) (byt : Byte) : hal_error × State × Byte :=
  if s.hal_uart_driver_installed then
    if s.filled ≠ 0 then
      let outPos1 := (s.outPos + 1) % 256
      (HAL_NO_ERROR,
        { s with
          filled := s.filled - 1
          outPos := if outPos1 = s.rxBuffSize then 0 else outPos1 },
        s.rxRead s.outPos)
    else (HAL_NOT_AVAIL, s, byt)
  else (HAL_FAIL, s, byt)

/-- The `for` loop of `hal_uart_get_bytes_num`: `length` iterations remain, `str`
is the caller's array, `i` the offset the pointer has advanced by, `ch` the
local byte. -/
def get_bytes_num_loop : Nat → State → List Byte → Nat → Byte → State × List Byte
  | 0, s, str, _, _ => (s, str)
  | length + 1, s, str, i, ch =>
    let r := hal_uart_get_byte s ch
    get_bytes_num_loop length r.2.1 (str.set i r.2.2) (i + 1) r.2.2

/-- The function `hal_uart_get_bytes_num`; the local `ch` is uninitialised in the
source and is written by `hal_uart_get_byte` before it is read. -/
def hal_uart_get_bytes_num (s : State) (str : List Byte) (length : Nat) :
    hal_error × State × List Byte :=
  if s.hal_uart_driver_installed then
    if s.filled ≥ length then
      let r := get_bytes_num_loop length s str 0 0
      (HAL_NO_ERROR, r.1, r.2)
    else (HAL_NOT_AVAIL, s, str)
  else (HAL_FAIL, s, str)

/-- The function `hal_uart_get_bytes_until`; `len` is the value of `*len` on entry,
the last component its value on return. -/
def hal_uart_get_bytes_until (s : State) (str : List Byte) (len : Nat) (delimiter : Byte) :
    hal_error × State × List Byte × Nat :=
  if s.hal_uart_driver_installed then
    if s.filled ≠ 0 then
      if s.ind < len then
        let r := hal_uart_get_byte s 0
        let s1 := r.2.1
        let ch := r.2.2
        if ch = delimiter then
          (HAL_NO_ERROR, { s1 with ind := 0 }, str, s1.ind)
        else
          (HAL_NOT_AVAIL, { s1 with ind := (s1.ind + 1) % 4294967296 }, str.set s1.ind ch, len)
      else
        (HAL_NO_ERROR, { s with ind := 0 }, str, s.ind)
    else (HAL_NOT_AVAIL, s, str, len)
  else (HAL_FAIL, s, str, len)

/-- The function `hal_uart_flush_buffer` (`cli()` … `sei()` leaves the global
interrupt flag set). -/
def hal_uart_flush_buffer (s : State) : State :=
  { s with inPos := 0, outPos := 0, filled := 0, SREG_I := true }


/-! ## Sequences of operations -/

/-- The interrupt handler run once per byte of `bs`, in order. -/
def feed : List Byte → State → State
  | [], s => s
  | b :: bs, s => feed bs (ISR_USART_RX b s)

/-- The foreground calls `hal_uart_get_byte(&byt)` `n` times on the same
location; the result lists the status and the value at the location after each
call, and the final state. -/
def drain : Nat → State → Byte → List (hal_error × Byte) × State
  | 0, s, _ => ([], s)
  | n + 1, s, byt =>
    let r := hal_uart_get_byte s byt
    let rest := drain n r.2.1 r.2.2
    ((r.1, r.2.2) :: rest.1, rest.2)

/-! ## The ring as a queue -/

/-- The abstraction: the `filled` bytes of the ring read circularly from
`outPos`. -/
def ringContents (s : State) : List Byte :=
  (List.range s.filled).map (fun i => s.rxRead ((s.outPos + i) % s.rxBuffSize))

/-- The ring invariant of an installed driver: the buffer is a block of
`rxBuffSize` bytes, at most `MAX_HAL_UART_BUFF_SIZE`; `filled` is at most the
capacity; `outPos` is an index of the block (0 for the empty block); and
`inPos` is `filled` places after `outPos`, circularly. -/
def RingInv (s : State) : Prop :=
  s.hal_uart_driver_installed = true ∧
  s.rxBuffer.map List.length = some s.rxBuffSize ∧
  s.rxBuffSize ≤ MAX_HAL_UART_BUFF_SIZE ∧
  s.filled ≤ s.rxBuffSize ∧
  s.outPos ≤ s.rxBuffSize - 1 ∧
  s.inPos = (s.outPos + s.filled) % s.rxBuffSize

instance (s : State) : Decidable (RingInv s) := by
  unfold RingInv
  infer_instance

/-- The operations on the ring: the interrupt handler and the three foreground
calls that read or clear it. -/
inductive RingOp where
  | isr (UDR0 : Byte)
  | get_byte
  | get_bytes_num (length : Nat)
  | flush
  deriving DecidableEq, Repr

/-- One ring operation on the driver: the new state and what the caller
observes, the status and the bytes delivered (`none` for the operations that
return nothing).  `hal_uart_get_bytes_num` is given an array of `length`
bytes. -/
def RingOp.exec : RingOp → State → State × Option (hal_error × List Byte)
  | .isr b, s => (ISR_USART_RX b s, none)
  | .get_byte, s =>
    let r := hal_uart_get_byte s 0
    (r.2.1, some (r.1, if r.1 = HAL_NO_ERROR then [r.2.2] else []))
  | .get_bytes_num n, s =>
    let r := hal_uart_get_bytes_num s (List.replicate n 0) n
    (r.2.1, some (r.1, if r.1 = HAL_NO_ERROR then r.2.2 else []))
  | .flush, s => (hal_uart_flush_buffer s, none)

/-- A sequence of ring operations on the driver: the final state and the
observations, in order. -/
def RingOp.run : List RingOp → State → State × List (Option (hal_error × List Byte))
  | [], s => (s, [])
  | op :: ops, s =>
    let r := op.exec s
    let rest := RingOp.run ops r.1
    (rest.1, r.2 :: rest.2)

/-- The bounded first-in first-out queue of the specification, one operation:
a byte is appended when the queue is shorter than the capacity and dropped
otherwise; a read removes the head; an exact read of `n` removes the first `n`
elements when there are that many and nothing otherwise; a flush empties the
queue. -/
def FifoSpec.step (capacity : Nat) :
    RingOp → List Byte → List Byte × Option (hal_error × List Byte)
  | .isr b, q => (if q.length < capacity then q ++ [b] else q, none)
  | .get_byte, q =>
    match q with
    | [] => ([], some (HAL_NOT_AVAIL, []))
    | x :: xs => (xs, some (HAL_NO_ERROR, [x]))
  | .get_bytes_num n, q =>
    if n ≤ q.length then (q.drop n, some (HAL_NO_ERROR, q.take n))
    else (q, some (HAL_NOT_AVAIL, []))
  | .flush, _ => ([], none)

/-- The bounded queue of the specification run over a sequence of operations. -/
def FifoSpec.run (capacity : Nat) :
    List RingOp → List Byte → List Byte × List (Option (hal_error × List Byte))
  | [], q => (q, [])
  | op :: ops, q =>
    let r := FifoSpec.step capacity op q
    let rest := FifoSpec.run capacity ops r.1
    (rest.1, r.2 :: rest.2)

/-! ## The delimiter scan polled by a caller -/

/-- What happens while a caller polls for a line: a byte arrives (the interrupt
fires), or the caller calls `hal_uart_get_bytes_until` once. -/
inductive ScanEvent where
  | recv (UDR0 : Byte)
  | poll
  deriving DecidableEq, Repr

/-- The driver together with the caller's array; `arrived` records the bytes
the interrupt handler has stored in the ring, in order. -/
structure ScanCfg where
  st : State
  str : List Byte
  arrived : List Byte
  deriving DecidableEq, Repr

/-- One event of a polling loop in which the caller sets `*len = len` before
every call, as `uart_string_echo_example.c` does. -/
def ScanEvent.step (len : Nat) (delimiter : Byte) : ScanEvent → ScanCfg → ScanCfg
  | .recv b, c =>
    { c with
      st := ISR_USART_RX b c.st
      arrived :=
        if c.st.hal_uart_driver_installed = true ∧ c.st.filled < c.st.rxBuffSize then
          c.arrived ++ [b]
        else c.arrived }
  | .poll, c =>
    let r := hal_uart_get_bytes_until c.st c.str len delimiter
    { c with st := r.2.1, str := r.2.2.1 }

/-- A sequence of events of a polling loop. -/
def scanRun (len : Nat) (delimiter : Byte) : List ScanEvent → ScanCfg → ScanCfg
  | [], c => c
  | e :: es, c => scanRun len delimiter es (e.step len delimiter c)

/-! ## Receive and read activity -/

/-- One step of receive or read activity on the driver, with the arguments
the caller passes. -/
inductive Activity where
  | isr (UDR0 : Byte)
  | get_byte (byt : Byte)
  | get_bytes_num (str : List Byte) (length : Nat)
  | get_bytes_until (str : List Byte) (len : Nat) (delimiter : Byte)
  | flush
  deriving DecidableEq, Repr

/-- The state after one step of activity. -/
def Activity.apply : Activity → State → State
  | .isr b, s => ISR_USART_RX b s
  | .get_byte byt, s => (hal_uart_get_byte s byt).2.1
  | .get_bytes_num str n, s => (hal_uart_get_bytes_num s str n).2.1
  | .get_bytes_until str len d, s => (hal_uart_get_bytes_until s str len d).2.1
  | .flush, s => hal_uart_flush_buffer s

/-- The state after a sequence of activity. -/
def runActivity : List Activity → State → State
  | [], s => s
  | a :: as, s => runActivity as (a.apply s)

/-! ## Transmit -/

/-- Bit `UDRE0` of `UCSR0A`. -/
def UDRE0 : Nat := 5

/-- The busy-wait `while( (UCSR0A & (1<<UDRE0)) == 0 );` of `hal_uart_write`.
`UCSR0A n` is the value the `n`-th read of the status register returns, `t` the
number of reads made so far, `fuel` a bound on the reads of this wait.  The
result is the number of reads made when the loop exits, `none` when the
transmitter is not ready within `fuel` reads. -/
def wait_UDRE0 (UCSR0A : Nat → Nat) : Nat → Nat → Option Nat
  | 0, _ => none
  | fuel + 1, t =>
    if (UCSR0A t) &&& (1 <<< UDRE0) = 0 then wait_UDRE0 UCSR0A fuel (t + 1)
    else some (t + 1)

/-- The function `hal_uart_write`: the byte written to `UDR0` is appended to `tx`. -/
def hal_uart_write (UCSR0A : Nat → Nat) (fuel : Nat) (ch : Byte) (s : State) (t : Nat) :
    Option (hal_error × State × Nat) :=
  if s.hal_uart_driver_installed = false then some (HAL_FAIL, s, t)
  else
    match wait_UDRE0 UCSR0A fuel t with
    | none => none
    | some t1 => some (HAL_NO_ERROR, { s with tx := s.tx ++ [ch] }, t1)

/-- The `for` loop of `hal_uart_write_bytes`: `len` iterations remain, `str` is
what is left of the caller's array from the pointer on, `err` the local status.
Reading past the end of the array is `none`. -/
def write_bytes_loop (UCSR0A : Nat → Nat) (fuel : Nat) :
    Nat → List Byte → hal_error → State → Nat → Option (hal_error × State × Nat)
  | 0, _, err, s, t => some (err, s, t)
  | _ + 1, [], _, _, _ => none
  | len + 1, c :: rest, _, s, t =>
    match hal_uart_write UCSR0A fuel c s t with
    | none => none
    | some r =>
      if r.1 ≠ HAL_NO_ERROR then some r
      else write_bytes_loop UCSR0A fuel len rest r.1 r.2.1 r.2.2

/-- The function `hal_uart_write_bytes` (`hal_error err=HAL_FAIL;` before the loop). -/
def hal_uart_write_bytes (UCSR0A : Nat → Nat) (fuel : Nat) (str : List Byte) (len : Nat)
    (s : State) (t : Nat) : Option (hal_error × State × Nat) :=
  write_bytes_loop UCSR0A fuel len str HAL_FAIL s t

/-- The function `hal_uart_write_bytes_nl`. -/
def hal_uart_write_bytes_nl (UCSR0A : Nat → Nat) (fuel : Nat) (str : List Byte) (len : Nat)
    (s : State) (t : Nat) : Option (hal_error × State × Nat) :=
  match hal_uart_write_bytes UCSR0A fuel str len s t with
  | none => none
  | some r =>
    if r.1 = HAL_NO_ERROR then hal_uart_write UCSR0A fuel 10 r.2.1 r.2.2
    else some r

/-- The `while` loop of `hal_uart_print`: `str` is what is left of the caller's
array from the pointer on, `err` the local status.  An array with no `'\0'` in
it is `none`. -/
def print_loop (UCSR0A : Nat → Nat) (fuel : Nat) :
    List Byte → hal_error → State → Nat → Option (hal_error × State × Nat)
  | [], _, _, _ => none
  | c :: rest, err, s, t =>
    if c = 0 then some (err, s, t)
    else
      match hal_uart_write UCSR0A fuel c s t with
      | none => none
      | some r =>
        if r.1 ≠ HAL_NO_ERROR then some r
        else print_loop UCSR0A fuel rest r.1 r.2.1 r.2.2

/-- The function `hal_uart_print` (`hal_error err=HAL_FAIL;` before the loop). -/
def hal_uart_print (UCSR0A : Nat → Nat) (fuel : Nat) (str : List Byte) (s : State)
    (t : Nat) : Option (hal_error × State × Nat) :=
  print_loop UCSR0A fuel str HAL_FAIL s t

/-- The function `hal_uart_println`. -/
def hal_uart_println (UCSR0A : Nat → Nat) (fuel : Nat) (str : List Byte) (s : State)
    (t : Nat) : Option (hal_error × State × Nat) :=
  match hal_uart_print UCSR0A fuel str s t with
  | none => none
  | some r =>
    if r.1 = HAL_NO_ERROR then hal_uart_write UCSR0A fuel 10 r.2.1 r.2.2
    else some r

/-! ## Lifecycle calls -/

/-- A call of one of the two lifecycle functions, with its argument and the
outcome of the allocation. -/
inductive LifecycleCall where
  | install (calloc_ok : Bool) (config : hal_uart_config)
  | uninstall
  deriving DecidableEq, Repr

/-- The state after one lifecycle call (`none` when the call has no defined
result). -/
def LifecycleCall.apply (F_CPU : Nat) : LifecycleCall → State → Option State
  | .install calloc_ok config, s =>
    (hal_uart_driver_install F_CPU calloc_ok config s).map (fun r => r.2)
  | .uninstall, s => some (hal_uart_driver_uninstall s).2

/-- The state after a sequence of lifecycle calls. -/
def runLifecycle (F_CPU : Nat) : List LifecycleCall → State → Option State
  | [], s => some s
  | c :: cs, s =>
    match c.apply F_CPU s with
    | none => none
    | some s1 => runLifecycle F_CPU cs s1

/-! ## Calls of the public interface -/

/-- A call of the public interface, or an interrupt: a lifecycle call, or a step
of receive or read activity. -/
inductive ApiCall where
  | lifecycle (c : LifecycleCall)
  | activity (a : Activity)
  deriving DecidableEq, Repr

/-- The state after one call (`none` when the call has no defined result). -/
def ApiCall.apply (F_CPU : Nat) : ApiCall → State → Option State
  | .lifecycle c, s => c.apply F_CPU s
  | .activity a, s => some (a.apply s)

/-- The state after a sequence of calls. -/
def runApi (F_CPU : Nat) : List ApiCall → State → Option State
  | [], s => some s
  | c :: cs, s =>
    match c.apply F_CPU s with
    | none => none
    | some s1 => runApi F_CPU cs s1

/-- The call, if it is a call of `hal_uart_get_bytes_until`, passes `*len = len`. -/
def ApiCall.usesLen (len : Nat) : ApiCall → Prop
  | .activity (.get_bytes_until _ l _) => l = len
  | _ => True

instance (len : Nat) (c : ApiCall) : Decidable (c.usesLen len) := by
  cases c with
  | lifecycle c => exact isTrue trivial
  | activity a =>
    cases a with
    | get_bytes_until str l d => exact decEq l len
    | isr b => exact isTrue trivial
    | get_byte byt => exact isTrue trivial
    | get_bytes_num str n => exact isTrue trivial
    | flush => exact isTrue trivial

/-! ## Predicates used in the statements -/

/-- The invariant of a polling loop that reads the line `w` ended by
`delimiter` into an array of at least `len` bytes.  Either the scan is under
way, the cursor `ind` counts the bytes of `w` copied so far, the array starts
with them, and the bytes that have arrived are these followed by the ring
contents; or the scan has ended, the array starts with `w`, the ring is empty
and all of `w` and the delimiter have arrived. -/
def ScanInv (w : List Byte) (delimiter : Byte) (len : Nat) (c : ScanCfg) : Prop :=
  RingInv c.st ∧ len ≤ c.str.length ∧
    ((c.st.ind ≤ w.length ∧ c.str.take c.st.ind = w.take c.st.ind ∧
        c.arrived = w.take c.st.ind ++ ringContents c.st) ∨
      (c.st.ind = 0 ∧ c.str.take w.length = w ∧ ringContents c.st = [] ∧
        c.arrived = w ++ [delimiter]))

/-- A configuration with every field in the range `hal_uart_driver_install`
handles: the buffer size is at most `MAX_HAL_UART_BUFF_SIZE`, the parity is one
of the three enumerators, and the baud rate is a nonzero `uint16_t`. -/
def ValidConfig (config : hal_uart_config) : Prop :=
  config._buffSize ≤ MAX_HAL_UART_BUFF_SIZE ∧
    (config._parity = NO_PARITY ∨ config._parity = EVEN_PARITY ∨ config._parity = ODD_PARITY) ∧
    config._baud ≠ 0 ∧ config._baud < 65536

instance (config : hal_uart_config) : Decidable (ValidConfig config) := by
  unfold ValidConfig
  infer_instance

/-! ## Example data -/

/-- The configuration of the example programs (`uart_character_echo_example.c`:
9600 baud, no parity, one stop bit), with a receive buffer of `c` bytes. -/
def echoConfig (c : Nat) : hal_uart_config :=
  { _baud := 9600, _parity := NO_PARITY, _stopBits := 1, _buffSize := c }

/-- The state left by `hal_uart_driver_install (echoConfig c)` on a 16 MHz part,
called at program start. -/
def echoInstalled (c : Nat) : State :=
  { rxBuffer := some (List.replicate c 0), rxBuffSize := c, inPos := 0, outPos := 0,
    filled := 0, num_overflows := 0, ind := 0, hal_uart_driver_installed := true, live := 1,
    UCSR0B := 152, UCSR0C := 6, UBRR0L := 103, UBRR0H := 0, SREG_I := true, tx := [] }

/-- The polling loop of the capacity-bound scan example: an array of 3 bytes,
delimiter `'\n'`, three bytes `"abc"` arrive and the caller polls three times
with `*len = 3`. -/
def fullScanExample : ScanCfg :=
  scanRun 3 10 [.recv 97, .recv 98, .recv 99, .poll, .poll, .poll]
    ⟨echoInstalled 50, [0, 0, 0], []⟩

/-- A polling loop stopped in the middle of a line: two bytes `"ab"` have arrived
and have been copied into the caller's array by two calls. -/
def midScanExample : ScanCfg :=
  scanRun 10 10 [.recv 97, .recv 98, .poll, .poll] ⟨echoInstalled 50, List.replicate 11 0, []⟩

/-- A transmitter that is ready at every read of the status register: `UCSR0A`
always reads with `UDRE0` set. -/
def alwaysReady : Nat → Nat := fun _ => 32

/-! ## Single steps on the ring -/

theorem mod_wrap {a c : Nat} (h : a < 2 * c) : a % c = if a < c then a else a - c := by
  split
  · next h1 => exact Nat.mod_eq_of_lt h1
  · next h1 =>
    have h2 : c ≤ a := Nat.le_of_not_lt h1
    rw [Nat.mod_eq_sub_mod h2]
    exact Nat.mod_eq_of_lt (by omega)

/-- Index arithmetic of the ring: stepping the index that lies `f` places after `o`. -/
theorem ring_step (o f c i : Nat) (ho : o ≤ c - 1) (hf : f < c) (hi : i = (o + f) % c) :
    i < c ∧ (if i + 1 = c then 0 else i + 1) = (o + (f + 1)) % c := by
  rw [mod_wrap (by omega)] at hi
  rw [mod_wrap (by omega)]
  split_ifs at hi ⊢ <;> omega

/-- Index arithmetic of the ring: two different offsets below the capacity give different cells. -/
theorem ring_ne (o i j c : Nat) (ho : o ≤ c - 1) (hi : i < j) (hj : j < c) :
    (o + j) % c ≠ (o + i) % c := by
  rw [mod_wrap (by omega), mod_wrap (by omega)]
  split_ifs <;> omega

theorem RingInv.buffer {s : State} (h : RingInv s) :
    ∃ buf, s.rxBuffer = some buf ∧ buf.length = s.rxBuffSize := by
  obtain ⟨_, h2, _⟩ := h
  cases hb : s.rxBuffer with
  | none => simp [hb] at h2
  | some buf => exact ⟨buf, rfl, by simpa [hb] using h2⟩

theorem ISR_full {s : State} (b : Byte) (hi : s.hal_uart_driver_installed = true)
    (hf : ¬ s.filled < s.rxBuffSize) :
    ISR_USART_RX b s = { s with num_overflows := (s.num_overflows + 1) % 4294967296 } := by
  simp [ISR_USART_RX, hi, hf]

theorem ISR_room {s : State} (b : Byte) (h : RingInv s) (hf : s.filled < s.rxBuffSize) :
    ISR_USART_RX b s =
      { s with
        rxBuffer := s.rxBuffer.map (fun l => l.set s.inPos b)
        filled := s.filled + 1
        inPos := (s.outPos + (s.filled + 1)) % s.rxBuffSize } := by
  obtain ⟨h1, h2, h3, h4, h5, h6⟩ := h
  simp only [MAX_HAL_UART_BUFF_SIZE] at h3
  obtain ⟨ha, hb⟩ := ring_step s.outPos s.filled s.rxBuffSize s.inPos h5 hf h6
  have e1 : (s.inPos + 1) % 256 = s.inPos + 1 := Nat.mod_eq_of_lt (by omega)
  have e2 : (s.filled + 1) % 256 = s.filled + 1 := Nat.mod_eq_of_lt (by omega)
  simp only [ISR_USART_RX, h1, hf, if_true, e1, e2, hb]

theorem ISR_room_inv {s : State} (b : Byte) (h : RingInv s) (hf : s.filled < s.rxBuffSize) :
    RingInv (ISR_USART_RX b s) := by
  rw [ISR_room b h hf]
  obtain ⟨buf, hb, hlen⟩ := h.buffer
  obtain ⟨h1, h2, h3, h4, h5, h6⟩ := h
  refine ⟨h1, ?_, h3, ?_, h5, rfl⟩
  · simp [hb, hlen]
  · show s.filled + 1 ≤ s.rxBuffSize
    omega

theorem ISR_room_contents {s : State} (b : Byte) (h : RingInv s) (hf : s.filled < s.rxBuffSize) :
    ringContents (ISR_USART_RX b s) = ringContents s ++ [b] := by
  rw [ISR_room b h hf]
  obtain ⟨buf, hb, hlen⟩ := h.buffer
  obtain ⟨h1, h2, h3, h4, h5, h6⟩ := h
  obtain ⟨ha, -⟩ := ring_step s.outPos s.filled s.rxBuffSize s.inPos h5 hf h6
  simp only [ringContents, State.rxRead, hb, Option.map_some',
    Option.getD_some, List.range_succ, List.map_append, List.map_cons, List.map_nil]
  congr 1
  · apply List.map_congr_left
    intro i hi
    rw [List.mem_range] at hi
    simp only [List.getD_eq_getElem?_getD]
    rw [List.getElem?_set_ne]
    rw [h6]
    exact ring_ne s.outPos i s.filled s.rxBuffSize h5 hi hf
  · simp only [List.getD_eq_getElem?_getD, ← h6]
    rw [List.getElem?_set_eq_of_lt]
    · rfl
    · rw [hlen]; exact ha


/-- Index arithmetic of the ring: stepping the read index. -/
theorem ring_out (o f c : Nat) (ho : o ≤ c - 1) (hf : f ≠ 0) (hfc : f ≤ c) :
    (if o + 1 = c then 0 else o + 1) = (o + 1) % c ∧ (o + 1) % c ≤ c - 1 ∧
      (o + f) % c = ((o + 1) % c + (f - 1)) % c ∧ o % c = o ∧
      ∀ i, i < f - 1 → (o + (i + 1)) % c = ((o + 1) % c + i) % c := by
  have h1 := @mod_wrap (o + 1) c (by omega)
  have h2 := @mod_wrap (o + f) c (by omega)
  refine ⟨?_, ?_, ?_, Nat.mod_eq_of_lt (by omega), ?_⟩
  · rw [h1]; split_ifs <;> omega
  · rw [h1]; split_ifs <;> omega
  · rw [h2, h1]
    split_ifs with a b
    · rw [mod_wrap (by omega)]; split_ifs <;> omega
    · omega
    · rw [mod_wrap (by omega)]; split_ifs <;> omega
    · rw [mod_wrap (by omega)]; split_ifs <;> omega
  · intro i hi
    rw [h1, mod_wrap (by omega)]
    split_ifs with a b
    · rw [mod_wrap (by omega)]; split_ifs <;> omega
    · omega
    · rw [mod_wrap (by omega)]; split_ifs <;> omega
    · rw [mod_wrap (by omega)]; split_ifs <;> omega

theorem get_byte_some {s : State} (byt : Byte) (h : RingInv s) (hf : s.filled ≠ 0) :
    hal_uart_get_byte s byt =
      (HAL_NO_ERROR,
        { s with filled := s.filled - 1, outPos := (s.outPos + 1) % s.rxBuffSize },
        s.rxRead s.outPos) := by
  obtain ⟨h1, h2, h3, h4, h5, h6⟩ := h
  simp only [MAX_HAL_UART_BUFF_SIZE] at h3
  obtain ⟨ha, -⟩ := ring_out s.outPos s.filled s.rxBuffSize h5 hf h4
  have e1 : (s.outPos + 1) % 256 = s.outPos + 1 := Nat.mod_eq_of_lt (by omega)
  simp only [hal_uart_get_byte, h1, hf, if_true, e1, ha, ne_eq, not_false_eq_true]

theorem get_byte_none {s : State} (byt : Byte) (hi : s.hal_uart_driver_installed = true)
    (hf : s.filled = 0) : hal_uart_get_byte s byt = (HAL_NOT_AVAIL, s, byt) := by
  simp [hal_uart_get_byte, hi, hf]

theorem get_byte_inv {s : State} (byt : Byte) (h : RingInv s) :
    RingInv (hal_uart_get_byte s byt).2.1 := by
  by_cases hf : s.filled = 0
  · rw [get_byte_none byt h.1 hf]; exact h
  · rw [get_byte_some byt h hf]
    obtain ⟨h1, h2, h3, h4, h5, h6⟩ := h
    obtain ⟨-, hb, hc, -, -⟩ := ring_out s.outPos s.filled s.rxBuffSize h5 hf h4
    refine ⟨h1, h2, h3, ?_, hb, ?_⟩
    · show s.filled - 1 ≤ s.rxBuffSize
      omega
    · show s.inPos = ((s.outPos + 1) % s.rxBuffSize + (s.filled - 1)) % s.rxBuffSize
      rw [h6, hc]

theorem get_byte_contents {s : State} (byt : Byte) (h : RingInv s) (hf : s.filled ≠ 0) :
    ringContents s =
      (hal_uart_get_byte s byt).2.2 :: ringContents (hal_uart_get_byte s byt).2.1 := by
  rw [get_byte_some byt h hf]
  obtain ⟨h1, h2, h3, h4, h5, h6⟩ := h
  obtain ⟨-, -, -, hd, he⟩ := ring_out s.outPos s.filled s.rxBuffSize h5 hf h4
  obtain ⟨n, hn⟩ : ∃ n, s.filled = n + 1 := ⟨s.filled - 1, by omega⟩
  simp only [ringContents, hn, List.range_succ_eq_map, List.map_cons, List.map_map,
    Nat.add_zero, hd, Nat.add_sub_cancel, State.rxRead]
  congr 1
  apply List.map_congr_left
  intro i hi
  rw [List.mem_range] at hi
  simp only [Function.comp, Nat.succ_eq_add_one]
  rw [he i (by omega)]

theorem ringContents_length (s : State) : (ringContents s).length = s.filled := by
  simp [ringContents]


/-! ### Installation -/

theorem parity_ucsrc_isSome (u p : Nat) :
    (parity_ucsrc u p).isSome = true ↔ p = NO_PARITY ∨ p = EVEN_PARITY ∨ p = ODD_PARITY := by
  unfold parity_ucsrc
  split_ifs <;> simp_all

theorem BAUD_PRESCALER_isSome (F_CPU : Nat) (config : hal_uart_config) :
    (BAUD_PRESCALER F_CPU config).isSome = true ↔ (config._baud * 16) % 4294967296 ≠ 0 := by
  unfold BAUD_PRESCALER
  simp only []
  split_ifs <;> simp_all

/-- What a call of `hal_uart_driver_install` that returns `HAL_NO_ERROR` leaves. -/
theorem install_ok {F_CPU : Nat} {calloc_ok : Bool} {config : hal_uart_config} {s s1 : State}
    (h : hal_uart_driver_install F_CPU calloc_ok config s = some (HAL_NO_ERROR, s1)) :
    config._buffSize ≤ MAX_HAL_UART_BUFF_SIZE ∧ calloc_ok = true ∧
      s1.hal_uart_driver_installed = true ∧
      s1.rxBuffer = some (List.replicate config._buffSize 0) ∧
      s1.rxBuffSize = config._buffSize ∧ s1.inPos = 0 ∧ s1.outPos = 0 ∧ s1.filled = 0 ∧
      s1.num_overflows = 0 ∧ s1.ind = s.ind ∧ s1.live = s.live + 1 := by
  unfold hal_uart_driver_install at h
  simp only [] at h
  split_ifs at h with h1 h2
  · simp at h
  · simp at h
  · cases hp : parity_ucsrc 6 config._parity with
    | none => simp [hp] at h
    | some u =>
      cases hq : BAUD_PRESCALER F_CPU config with
      | none => simp [hp, hq] at h
      | some p =>
        simp only [hp, hq, Option.some.injEq, Prod.mk.injEq, true_and] at h
        subst h
        simp only [and_self, and_true]
        exact ⟨Nat.le_of_not_lt h1, by simpa using h2⟩

theorem install_ok_inv {F_CPU : Nat} {calloc_ok : Bool} {config : hal_uart_config}
    {s s1 : State}
    (h : hal_uart_driver_install F_CPU calloc_ok config s = some (HAL_NO_ERROR, s1)) :
    RingInv s1 ∧ ringContents s1 = [] := by
  obtain ⟨h1, -, h3, h4, h5, h6, h7, h8, -, -, -⟩ := install_ok h
  refine ⟨⟨h3, ?_, ?_, ?_, ?_, ?_⟩, ?_⟩
  · simp [h4, h5]
  · rw [h5]; exact h1
  · omega
  · omega
  · rw [h6, h7, h8]; simp
  · simp [ringContents, h8]

/-! ### Feeding and draining -/

theorem feed_inv (bs : List Byte) {s : State} (h : RingInv s)
    (ho : s.num_overflows < 4294967296) :
    RingInv (feed bs s) ∧ (feed bs s).rxBuffSize = s.rxBuffSize ∧
      (feed bs s).ind = s.ind ∧
      ringContents (feed bs s) = ringContents s ++ bs.take (s.rxBuffSize - s.filled) ∧
      (feed bs s).num_overflows =
        (s.num_overflows + (bs.length - (s.rxBuffSize - s.filled))) % 4294967296 := by
  induction bs generalizing s with
  | nil =>
    simp only [feed, List.length_nil, Nat.zero_sub, Nat.add_zero, List.take_nil,
      List.append_nil, Nat.mod_eq_of_lt ho]
    simp [h]
  | cons b bs ih =>
    by_cases hf : s.filled < s.rxBuffSize
    · have e := ISR_room b h hf
      have ec : (ISR_USART_RX b s).rxBuffSize = s.rxBuffSize := by rw [e]
      have ef : (ISR_USART_RX b s).filled = s.filled + 1 := by rw [e]
      have eo : (ISR_USART_RX b s).num_overflows = s.num_overflows := by rw [e]
      have ei : (ISR_USART_RX b s).ind = s.ind := by rw [e]
      have ed : s.rxBuffSize - s.filled = (s.rxBuffSize - (s.filled + 1)) + 1 := by omega
      obtain ⟨i1, i2, i3, i4, i5⟩ := ih (ISR_room_inv b h hf) (by rw [eo]; exact ho)
      refine ⟨i1, ?_, ?_, ?_, ?_⟩
      · simp only [feed]; rw [i2, ec]
      · simp only [feed]; rw [i3, ei]
      · simp only [feed]
        rw [i4, ISR_room_contents b h hf, ec, ef, ed, List.take_succ_cons]
        simp
      · simp only [feed]
        rw [i5, ec, ef, eo]
        simp only [List.length_cons]
        congr 2; omega
    · have e := ISR_full b h.1 hf
      have hinv : RingInv (ISR_USART_RX b s) := by
        rw [e]; exact h
      have ec : (ISR_USART_RX b s).rxBuffSize = s.rxBuffSize := by rw [e]
      have ef : (ISR_USART_RX b s).filled = s.filled := by rw [e]
      have eo : (ISR_USART_RX b s).num_overflows = (s.num_overflows + 1) % 4294967296 := by rw [e]
      have ei : (ISR_USART_RX b s).ind = s.ind := by rw [e]
      have er : ringContents (ISR_USART_RX b s) = ringContents s := by rw [e]; rfl
      have ez : s.rxBuffSize - s.filled = 0 := by omega
      obtain ⟨i1, i2, i3, i4, i5⟩ := ih hinv (by rw [eo]; exact Nat.mod_lt _ (by decide))
      refine ⟨i1, ?_, ?_, ?_, ?_⟩
      · simp only [feed]; rw [i2, ec]
      · simp only [feed]; rw [i3, ei]
      · simp only [feed]
        rw [i4, er, ec, ef, ez]
        simp
      · simp only [feed]
        rw [i5, ec, ef, eo, ez]
        simp only [List.length_cons, Nat.sub_zero]
        rw [Nat.mod_add_mod]
        congr 1; omega

theorem drain_inv (n : Nat) {s : State} (byt : Byte) (h : RingInv s) (hn : n ≤ s.filled) :
    (drain n s byt).1 = ((ringContents s).take n).map (fun b => (HAL_NO_ERROR, b)) ∧
      RingInv (drain n s byt).2 ∧
      ringContents (drain n s byt).2 = (ringContents s).drop n ∧
      (drain n s byt).2.rxBuffSize = s.rxBuffSize ∧
      (drain n s byt).2.num_overflows = s.num_overflows := by
  induction n generalizing s byt with
  | zero => simp [drain, h]
  | succ n ih =>
    have hf : s.filled ≠ 0 := by omega
    have hc := get_byte_contents byt h hf
    have hi := get_byte_inv byt h
    have hs := get_byte_some byt h hf
    have hfil : (hal_uart_get_byte s byt).2.1.filled = s.filled - 1 := by rw [hs]
    have hcap : (hal_uart_get_byte s byt).2.1.rxBuffSize = s.rxBuffSize := by rw [hs]
    have hov : (hal_uart_get_byte s byt).2.1.num_overflows = s.num_overflows := by rw [hs]
    have hst : (hal_uart_get_byte s byt).1 = HAL_NO_ERROR := by rw [hs]
    obtain ⟨i1, i2, i3, i4, i5⟩ := ih (hal_uart_get_byte s byt).2.2 hi (by omega)
    simp only [drain]
    refine ⟨?_, i2, ?_, ?_, ?_⟩
    · rw [i1, hc, hst]; simp
    · rw [i3]; conv => rhs; rw [hc]
      simp
    · rw [i4, hcap]
    · rw [i5, hov]

/-! ### Exact reads and flush -/

theorem take_drop_set (l : List Byte) (i : Nat) (x : Byte) (hi : i < l.length) (n : Nat) :
    (l.set i x).take (i + 1) = l.take i ++ [x] ∧
      (l.set i x).drop (i + 1 + n) = l.drop (i + 1 + n) := by
  induction l generalizing i with
  | nil => simp at hi
  | cons a l ih =>
    cases i with
    | zero =>
      have e : 0 + 1 + n = n + 1 := by omega
      rw [e]
      simp
    | succ i =>
      have e : i + 1 + 1 + n = (i + 1 + n) + 1 := by omega
      have hi2 : i < l.length := by simpa using hi
      obtain ⟨h1, h2⟩ := ih i hi2
      rw [e]
      simp only [List.set_cons_succ, List.take_succ_cons, List.drop_succ_cons, h1, h2]
      simp

theorem get_bytes_num_loop_spec (n : Nat) {s : State} (str : List Byte) (i : Nat) (ch : Byte)
    (h : RingInv s) (hn : n ≤ s.filled) (hi : i + n ≤ str.length) :
    (get_bytes_num_loop n s str i ch).2 =
        str.take i ++ (ringContents s).take n ++ str.drop (i + n) ∧
      RingInv (get_bytes_num_loop n s str i ch).1 ∧
      ringContents (get_bytes_num_loop n s str i ch).1 = (ringContents s).drop n ∧
      (get_bytes_num_loop n s str i ch).1.rxBuffSize = s.rxBuffSize := by
  induction n generalizing s str i ch with
  | zero => simp [get_bytes_num_loop, h]
  | succ n ih =>
    have hf : s.filled ≠ 0 := by omega
    have hc := get_byte_contents ch h hf
    have hinv := get_byte_inv ch h
    have hs := get_byte_some ch h hf
    have hfil : (hal_uart_get_byte s ch).2.1.filled = s.filled - 1 := by rw [hs]
    have hcap : (hal_uart_get_byte s ch).2.1.rxBuffSize = s.rxBuffSize := by rw [hs]
    have hil : i < str.length := by omega
    obtain ⟨i1, i2, i3, i4⟩ :=
      ih (str.set i (hal_uart_get_byte s ch).2.2) (i + 1) (hal_uart_get_byte s ch).2.2 hinv
        (by omega) (by rw [List.length_set]; omega)
    simp only [get_bytes_num_loop]
    refine ⟨?_, i2, ?_, ?_⟩
    · obtain ⟨t1, t2⟩ := take_drop_set str i (hal_uart_get_byte s ch).2.2 hil n
      have e : i + (n + 1) = i + 1 + n := by omega
      rw [i1, hc, List.take_succ_cons, t1, t2, e]
      simp
    · rw [i3]
      conv => rhs; rw [hc]
      simp
    · rw [i4, hcap]

theorem get_bytes_num_some {s : State} (str : List Byte) (n : Nat)
    (h : RingInv s) (hn : n ≤ s.filled) (hl : n ≤ str.length) :
    (hal_uart_get_bytes_num s str n).1 = HAL_NO_ERROR ∧
      (hal_uart_get_bytes_num s str n).2.2 = (ringContents s).take n ++ str.drop n ∧
      RingInv (hal_uart_get_bytes_num s str n).2.1 ∧
      ringContents (hal_uart_get_bytes_num s str n).2.1 = (ringContents s).drop n ∧
      (hal_uart_get_bytes_num s str n).2.1.rxBuffSize = s.rxBuffSize := by
  obtain ⟨l1, l2, l3, l4⟩ := get_bytes_num_loop_spec n str 0 0 h hn (by omega)
  have hge : s.filled ≥ n := hn
  have e : hal_uart_get_bytes_num s str n =
      (HAL_NO_ERROR, (get_bytes_num_loop n s str 0 0).1, (get_bytes_num_loop n s str 0 0).2) := by
    simp only [hal_uart_get_bytes_num, h.1, hge, if_true]
  rw [e]
  refine ⟨rfl, ?_, l2, l3, l4⟩
  show (get_bytes_num_loop n s str 0 0).2 = _
  rw [l1]
  simp

theorem get_bytes_num_none {s : State} (str : List Byte) (n : Nat)
    (hi : s.hal_uart_driver_installed = true) (hn : s.filled < n) :
    hal_uart_get_bytes_num s str n = (HAL_NOT_AVAIL, s, str) := by
  have hge : ¬ s.filled ≥ n := by omega
  simp [hal_uart_get_bytes_num, hi, hge]

theorem flush_inv {s : State} (h : RingInv s) :
    RingInv (hal_uart_flush_buffer s) ∧ ringContents (hal_uart_flush_buffer s) = [] ∧
      (hal_uart_flush_buffer s).rxBuffSize = s.rxBuffSize := by
  obtain ⟨h1, h2, h3, h4, h5, h6⟩ := h
  refine ⟨⟨h1, h2, h3, Nat.zero_le _, Nat.zero_le _, ?_⟩, rfl, rfl⟩
  show 0 = (0 + 0) % s.rxBuffSize
  simp

/-- One ring operation on the driver and on the bounded queue of the
specification, from related states. -/
theorem exec_simulates (op : RingOp) {s : State} (h : RingInv s) :
    RingInv (op.exec s).1 ∧ (op.exec s).1.rxBuffSize = s.rxBuffSize ∧
      ringContents (op.exec s).1 = (FifoSpec.step s.rxBuffSize op (ringContents s)).1 ∧
      (op.exec s).2 = (FifoSpec.step s.rxBuffSize op (ringContents s)).2 := by
  cases op with
  | isr b =>
    show RingInv (ISR_USART_RX b s) ∧ (ISR_USART_RX b s).rxBuffSize = s.rxBuffSize ∧
      ringContents (ISR_USART_RX b s) =
        (if (ringContents s).length < s.rxBuffSize then ringContents s ++ [b]
          else ringContents s) ∧ none = none
    rw [ringContents_length]
    by_cases hf : s.filled < s.rxBuffSize
    · rw [if_pos hf]
      refine ⟨ISR_room_inv b h hf, ?_, ISR_room_contents b h hf, rfl⟩
      rw [ISR_room b h hf]
    · rw [if_neg hf, ISR_full b h.1 hf]
      exact ⟨h, rfl, rfl, rfl⟩
  | get_byte =>
    by_cases hf : s.filled = 0
    · have hq : ringContents s = [] := by
        apply List.eq_nil_of_length_eq_zero
        rw [ringContents_length, hf]
      simp only [RingOp.exec]
      rw [get_byte_none 0 h.1 hf, hq]
      exact ⟨h, rfl, rfl, rfl⟩
    · have hc := get_byte_contents 0 h hf
      have hs := get_byte_some 0 h hf
      have hst : (hal_uart_get_byte s 0).1 = HAL_NO_ERROR := by rw [hs]
      have hcap : (hal_uart_get_byte s 0).2.1.rxBuffSize = s.rxBuffSize := by rw [hs]
      simp only [RingOp.exec]
      refine ⟨get_byte_inv 0 h, hcap, ?_, ?_⟩
      · rw [hc]; rfl
      · rw [hc, hst]; rfl
  | get_bytes_num n =>
    by_cases hn : n ≤ s.filled
    · obtain ⟨g1, g2, g3, g4, g5⟩ :=
        get_bytes_num_some (List.replicate n 0) n h hn (by simp)
      have hq : n ≤ (ringContents s).length := by rw [ringContents_length]; exact hn
      simp only [RingOp.exec, FifoSpec.step]
      rw [if_pos hq, g1, g2]
      refine ⟨g3, g5, g4, ?_⟩
      simp
    · have hq : ¬ n ≤ (ringContents s).length := by rw [ringContents_length]; exact hn
      simp only [RingOp.exec, FifoSpec.step]
      rw [if_neg hq, get_bytes_num_none _ n h.1 (by omega)]
      exact ⟨h, rfl, rfl, rfl⟩
  | flush =>
    obtain ⟨f1, f2, f3⟩ := flush_inv h
    exact ⟨f1, f3, f2, rfl⟩

/-- Any sequence of ring operations on the driver and on the bounded queue of
the specification, from related states. -/
theorem run_simulates (ops : List RingOp) {s : State} (h : RingInv s) :
    RingInv (RingOp.run ops s).1 ∧ (RingOp.run ops s).1.rxBuffSize = s.rxBuffSize ∧
      ringContents (RingOp.run ops s).1 = (FifoSpec.run s.rxBuffSize ops (ringContents s)).1 ∧
      (RingOp.run ops s).2 = (FifoSpec.run s.rxBuffSize ops (ringContents s)).2 := by
  induction ops generalizing s with
  | nil => exact ⟨h, rfl, rfl, rfl⟩
  | cons op ops ih =>
    obtain ⟨e1, e2, e3, e4⟩ := exec_simulates op h
    obtain ⟨r1, r2, r3, r4⟩ := ih e1
    simp only [RingOp.run, FifoSpec.run]
    rw [e2, e3] at r3 r4
    refine ⟨r1, by rw [r2, e2], r3, ?_⟩
    rw [r4, e4]

/-! ### The delimiter scan -/

theorem until_fail {s : State} (str : List Byte) (len : Nat) (d : Byte)
    (hi : s.hal_uart_driver_installed = false) :
    hal_uart_get_bytes_until s str len d = (HAL_FAIL, s, str, len) := by
  simp [hal_uart_get_bytes_until, hi]

theorem until_empty {s : State} (str : List Byte) (len : Nat) (d : Byte)
    (hi : s.hal_uart_driver_installed = true) (hf : s.filled = 0) :
    hal_uart_get_bytes_until s str len d = (HAL_NOT_AVAIL, s, str, len) := by
  simp [hal_uart_get_bytes_until, hi, hf]

theorem until_full {s : State} (str : List Byte) (len : Nat) (d : Byte)
    (hi : s.hal_uart_driver_installed = true) (hf : s.filled ≠ 0) (hl : ¬ s.ind < len) :
    hal_uart_get_bytes_until s str len d = (HAL_NO_ERROR, { s with ind := 0 }, str, s.ind) := by
  simp [hal_uart_get_bytes_until, hi, hf, hl]

theorem until_store {s : State} (str : List Byte) (len : Nat) (d : Byte)
    (hi : s.hal_uart_driver_installed = true) (hf : s.filled ≠ 0) (hl : s.ind < len)
    (hd : (hal_uart_get_byte s 0).2.2 ≠ d) :
    hal_uart_get_bytes_until s str len d =
      (HAL_NOT_AVAIL,
        { (hal_uart_get_byte s 0).2.1 with
          ind := ((hal_uart_get_byte s 0).2.1.ind + 1) % 4294967296 },
        str.set (hal_uart_get_byte s 0).2.1.ind (hal_uart_get_byte s 0).2.2, len) := by
  simp only [hal_uart_get_bytes_until, hi, hf, hl, hd, if_true, if_false, ne_eq,
    not_false_eq_true]

theorem until_delim {s : State} (str : List Byte) (len : Nat) (d : Byte)
    (hi : s.hal_uart_driver_installed = true) (hf : s.filled ≠ 0) (hl : s.ind < len)
    (hd : (hal_uart_get_byte s 0).2.2 = d) :
    hal_uart_get_bytes_until s str len d =
      (HAL_NO_ERROR, { (hal_uart_get_byte s 0).2.1 with ind := 0 }, str,
        (hal_uart_get_byte s 0).2.1.ind) := by
  simp only [hal_uart_get_bytes_until, hi, hf, hl, hd, if_true, ne_eq, not_false_eq_true]

/-- A call of `hal_uart_get_bytes_until` on a ring with head `x`, the cursor below
`len`: the head is removed; it is stored at the cursor, which advances, unless it
is the delimiter, which ends the scan. -/
theorem until_pop {s : State} (str : List Byte) (len : Nat) (d x : Byte) (xs : List Byte)
    (h : RingInv s) (hq : ringContents s = x :: xs) (hl : s.ind < len) :
    RingInv (hal_uart_get_bytes_until s str len d).2.1 ∧
      ringContents (hal_uart_get_bytes_until s str len d).2.1 = xs ∧
      (hal_uart_get_bytes_until s str len d).2.1.rxBuffSize = s.rxBuffSize ∧
      (x ≠ d →
        (hal_uart_get_bytes_until s str len d).1 = HAL_NOT_AVAIL ∧
          (hal_uart_get_bytes_until s str len d).2.1.ind = (s.ind + 1) % 4294967296 ∧
          (hal_uart_get_bytes_until s str len d).2.2.1 = str.set s.ind x ∧
          (hal_uart_get_bytes_until s str len d).2.2.2 = len) ∧
      (x = d →
        (hal_uart_get_bytes_until s str len d).1 = HAL_NO_ERROR ∧
          (hal_uart_get_bytes_until s str len d).2.1.ind = 0 ∧
          (hal_uart_get_bytes_until s str len d).2.2.1 = str ∧
          (hal_uart_get_bytes_until s str len d).2.2.2 = s.ind) := by
  have hf : s.filled ≠ 0 := by
    rw [← ringContents_length, hq]
    simp
  have hc := get_byte_contents 0 h hf
  rw [hq] at hc
  injection hc with hx hxs
  have hinv := get_byte_inv 0 h
  have hs := get_byte_some 0 h hf
  have hind : (hal_uart_get_byte s 0).2.1.ind = s.ind := by rw [hs]
  have hcap : (hal_uart_get_byte s 0).2.1.rxBuffSize = s.rxBuffSize := by rw [hs]
  by_cases hd : x = d
  · have hd2 : (hal_uart_get_byte s 0).2.2 = d := by rw [← hx]; exact hd
    rw [until_delim str len d h.1 hf hl hd2]
    refine ⟨hinv, hxs.symm, hcap, fun hne => absurd hd hne, fun _ => ⟨rfl, rfl, rfl, hind⟩⟩
  · have hd2 : (hal_uart_get_byte s 0).2.2 ≠ d := by rw [← hx]; exact hd
    rw [until_store str len d h.1 hf hl hd2]
    refine ⟨hinv, hxs.symm, hcap, fun _ => ⟨rfl, ?_, ?_, rfl⟩, fun he => absurd he hd⟩
    · show ((hal_uart_get_byte s 0).2.1.ind + 1) % 4294967296 = _
      rw [hind]
    · show str.set (hal_uart_get_byte s 0).2.1.ind (hal_uart_get_byte s 0).2.2 = _
      rw [hind, ← hx]

/-- The head of what is left of the stream `w ++ [d]` after `i` bytes of `w`. -/
theorem stream_head (w : List Byte) (d x : Byte) (i : Nat) (rest : List Byte)
    (hi : i ≤ w.length) (hw : d ∉ w) (h : w.take i ++ x :: rest = w ++ [d]) :
    (x ≠ d → i < w.length ∧ w[i]? = some x) ∧ (x = d → i = w.length ∧ rest = []) := by
  have hlen : (w.take i).length = i := by
    rw [List.length_take]
    omega
  have h2 := congrArg (List.drop i) h
  rw [List.drop_left' hlen, List.drop_append_of_le_length hi] at h2
  rcases Nat.lt_or_eq_of_le hi with hlt | heq
  · rw [List.drop_eq_getElem_cons hlt] at h2
    injection h2 with hx _
    have hmem : x ∈ w := by
      rw [hx]
      exact List.getElem_mem hlt
    refine ⟨fun _ => ⟨hlt, ?_⟩, fun he => ?_⟩
    · rw [List.getElem?_eq_getElem hlt, hx]
    · rw [he] at hmem
      exact absurd hmem hw
  · rw [heq, List.drop_length, List.nil_append] at h2
    injection h2 with hx hr
    exact ⟨fun hne => absurd hx hne, fun _ => ⟨heq, hr⟩⟩

theorem take_succ_of_getElem? (w : List Byte) (i : Nat) (x : Byte) (h : w[i]? = some x) :
    w.take (i + 1) = w.take i ++ [x] := by
  rw [List.take_succ, h]
  rfl

theorem arrived_grows (len : Nat) (d : Byte) (evs : List ScanEvent) (c : ScanCfg) :
    ∃ t, (scanRun len d evs c).arrived = c.arrived ++ t := by
  induction evs generalizing c with
  | nil => exact ⟨[], by simp [scanRun]⟩
  | cons e es ih =>
    obtain ⟨t, ht⟩ := ih (e.step len d c)
    cases e with
    | recv b =>
      simp only [scanRun]
      rw [ht]
      simp only [ScanEvent.step]
      split_ifs
      · exact ⟨[b] ++ t, by simp⟩
      · exact ⟨t, rfl⟩
    | poll =>
      simp only [scanRun]
      rw [ht]
      exact ⟨t, rfl⟩

theorem recv_keeps_ScanInv (w : List Byte) (d : Byte) (len : Nat) (b : Byte) (c : ScanCfg)
    (h : ScanInv w d len c)
    (hp : ∃ t, ((ScanEvent.recv b).step len d c).arrived ++ t = w ++ [d]) :
    ScanInv w d len ((ScanEvent.recv b).step len d c) := by
  obtain ⟨hinv, hstr, hph⟩ := h
  by_cases hf : c.st.filled < c.st.rxBuffSize
  · have hcond : c.st.hal_uart_driver_installed = true ∧ c.st.filled < c.st.rxBuffSize :=
      ⟨hinv.1, hf⟩
    have harr : ((ScanEvent.recv b).step len d c).arrived = c.arrived ++ [b] := by
      simp only [ScanEvent.step, if_pos hcond]
    have hst : ((ScanEvent.recv b).step len d c).st = ISR_USART_RX b c.st := rfl
    have hs : ((ScanEvent.recv b).step len d c).str = c.str := rfl
    have hind : (ISR_USART_RX b c.st).ind = c.st.ind := by rw [ISR_room b hinv hf]
    refine ⟨by rw [hst]; exact ISR_room_inv b hinv hf, by rw [hs]; exact hstr, ?_⟩
    rcases hph with ⟨p1, p2, p3⟩ | ⟨p1, p2, p3, p4⟩
    · left
      rw [hst, hs, harr, hind, ISR_room_contents b hinv hf, p3]
      exact ⟨p1, p2, by simp⟩
    · exfalso
      obtain ⟨t, ht⟩ := hp
      rw [harr, p4] at ht
      have := congrArg List.length ht
      simp at this
  · have hcond : ¬ (c.st.hal_uart_driver_installed = true ∧ c.st.filled < c.st.rxBuffSize) :=
      fun hc => hf hc.2
    have harr : ((ScanEvent.recv b).step len d c).arrived = c.arrived := by
      simp only [ScanEvent.step, if_neg hcond]
    have hst : ((ScanEvent.recv b).step len d c).st =
        { c.st with num_overflows := (c.st.num_overflows + 1) % 4294967296 } := by
      show ISR_USART_RX b c.st = _
      rw [ISR_full b hinv.1 hf]
    have hs : ((ScanEvent.recv b).step len d c).str = c.str := rfl
    refine ⟨by rw [hst]; exact hinv, by rw [hs]; exact hstr, ?_⟩
    rw [hst, hs, harr]
    exact hph

/-- One call of `hal_uart_get_bytes_until` in a polling loop that reads the line
`w` ended by `d`: what the call returns in each case of the ring, and the
invariant after it. -/
theorem poll_ScanInv (w : List Byte) (d : Byte) (len : Nat) (c : ScanCfg)
    (hw : d ∉ w) (hL : w.length < len) (hL32 : len < 4294967296)
    (h : ScanInv w d len c) (hp : ∃ t, c.arrived ++ t = w ++ [d]) :
    ScanInv w d len (ScanEvent.poll.step len d c) ∧
      (ringContents c.st = [] →
        hal_uart_get_bytes_until c.st c.str len d = (HAL_NOT_AVAIL, c.st, c.str, len)) ∧
      (∀ (x : Byte) (xs : List Byte), ringContents c.st = x :: xs → x ≠ d →
        c.st.ind < w.length ∧ w[c.st.ind]? = some x ∧
          (hal_uart_get_bytes_until c.st c.str len d).1 = HAL_NOT_AVAIL ∧
          (hal_uart_get_bytes_until c.st c.str len d).2.1.ind = c.st.ind + 1 ∧
          (hal_uart_get_bytes_until c.st c.str len d).2.2.1 = c.str.set c.st.ind x ∧
          (hal_uart_get_bytes_until c.st c.str len d).2.2.1.take (c.st.ind + 1) =
            w.take (c.st.ind + 1) ∧
          (hal_uart_get_bytes_until c.st c.str len d).2.2.2 = len ∧
          ringContents (hal_uart_get_bytes_until c.st c.str len d).2.1 = xs) ∧
      (∀ xs : List Byte, ringContents c.st = d :: xs →
        (hal_uart_get_bytes_until c.st c.str len d).1 = HAL_NO_ERROR ∧
          (hal_uart_get_bytes_until c.st c.str len d).2.2.2 = w.length ∧
          (hal_uart_get_bytes_until c.st c.str len d).2.2.1.take w.length = w ∧
          (hal_uart_get_bytes_until c.st c.str len d).2.1.ind = 0 ∧
          ringContents (hal_uart_get_bytes_until c.st c.str len d).2.1 = []) := by
  obtain ⟨hinv, hstr, hph⟩ := h
  have hstep : ScanEvent.poll.step len d c =
      { c with
        st := (hal_uart_get_bytes_until c.st c.str len d).2.1
        str := (hal_uart_get_bytes_until c.st c.str len d).2.2.1 } := rfl
  cases hq : ringContents c.st with
  | nil =>
    have hf : c.st.filled = 0 := by rw [← ringContents_length, hq]; rfl
    have he := until_empty c.str len d hinv.1 hf
    refine ⟨?_, fun _ => he, fun x xs hx => by simp at hx, fun xs hx => by simp at hx⟩
    rw [hstep, he]
    exact ⟨hinv, hstr, hph⟩
  | cons x xs =>
    rcases hph with ⟨p1, p2, p3⟩ | ⟨p1, p2, p3, p4⟩
    · obtain ⟨t, ht⟩ := hp
      rw [p3, hq, List.append_assoc, List.cons_append] at ht
      obtain ⟨sh1, sh2⟩ := stream_head w d x c.st.ind (xs ++ t) p1 hw ht
      have hl : c.st.ind < len := by omega
      obtain ⟨u1, u2, u3, u4, u5⟩ := until_pop c.str len d x xs hinv hq hl
      by_cases hd : x = d
      · obtain ⟨v1, v2, v3, v4⟩ := u5 hd
        obtain ⟨e1, e2⟩ := sh2 hd
        have hxs : xs = [] := (List.append_eq_nil.1 e2).1
        have htake : c.str.take w.length = w := by
          rw [← e1, p2, e1, List.take_length]
        refine ⟨?_, fun hn => by simp at hn, fun y ys hy hyd => ?_, fun ys hy => ?_⟩
        · rw [hstep]
          refine ⟨u1, ?_, Or.inr ⟨v2, ?_, ?_, ?_⟩⟩
          · show len ≤ (hal_uart_get_bytes_until c.st c.str len d).2.2.1.length
            rw [v3]; exact hstr
          · show (hal_uart_get_bytes_until c.st c.str len d).2.2.1.take w.length = w
            rw [v3]; exact htake
          · show ringContents (hal_uart_get_bytes_until c.st c.str len d).2.1 = []
            rw [u2, hxs]
          · show c.arrived = w ++ [d]
            rw [p3, hq, e1, List.take_length, hxs, hd]
        · injection hy with hy1 hy2
          exact absurd (hy1 ▸ hd) hyd
        · rw [v1, v4, v3, v2, u2, hxs]
          exact ⟨rfl, e1, htake, rfl, rfl⟩
      · obtain ⟨v1, v2, v3, v4⟩ := u4 hd
        obtain ⟨e1, e2⟩ := sh1 hd
        have hmod : (c.st.ind + 1) % 4294967296 = c.st.ind + 1 :=
          Nat.mod_eq_of_lt (by omega)
        rw [hmod] at v2
        have hil : c.st.ind < c.str.length := by omega
        have htake : (c.str.set c.st.ind x).take (c.st.ind + 1) = w.take (c.st.ind + 1) := by
          rw [(take_drop_set c.str c.st.ind x hil 0).1, p2, take_succ_of_getElem? w _ x e2]
        refine ⟨?_, fun hn => by simp at hn, fun y ys hy hyd => ?_, fun ys hy => ?_⟩
        · rw [hstep]
          refine ⟨u1, ?_, Or.inl ⟨?_, ?_, ?_⟩⟩
          · show len ≤ (hal_uart_get_bytes_until c.st c.str len d).2.2.1.length
            rw [v3, List.length_set]; exact hstr
          · show (hal_uart_get_bytes_until c.st c.str len d).2.1.ind ≤ w.length
            rw [v2]; omega
          · show (hal_uart_get_bytes_until c.st c.str len d).2.2.1.take
                (hal_uart_get_bytes_until c.st c.str len d).2.1.ind =
              w.take (hal_uart_get_bytes_until c.st c.str len d).2.1.ind
            rw [v2, v3]; exact htake
          · show c.arrived = w.take (hal_uart_get_bytes_until c.st c.str len d).2.1.ind ++
              ringContents (hal_uart_get_bytes_until c.st c.str len d).2.1
            rw [v2, u2, p3, hq, take_succ_of_getElem? w _ x e2]
            simp
        · injection hy with hy1 hy2
          subst hy1 hy2
          rw [v1, v2, v3, v4, u2]
          exact ⟨e1, e2, rfl, rfl, rfl, htake, rfl, rfl⟩
        · injection hy with hy1 hy2
          exact absurd hy1 hd
    · rw [p3] at hq
      simp at hq

theorem scanRun_append (len : Nat) (d : Byte) (pre post : List ScanEvent) (c : ScanCfg) :
    scanRun len d (pre ++ post) c = scanRun len d post (scanRun len d pre c) := by
  induction pre generalizing c with
  | nil => rfl
  | cons e es ih => exact ih (e.step len d c)

/-- The invariant holds all along a polling loop in which no more than the line
`w` and the delimiter arrive. -/
theorem scanRun_ScanInv (w : List Byte) (d : Byte) (len : Nat) (evs : List ScanEvent)
    (c : ScanCfg) (hw : d ∉ w) (hL : w.length < len) (hL32 : len < 4294967296)
    (h : ScanInv w d len c) (hp : ∃ t, (scanRun len d evs c).arrived ++ t = w ++ [d]) :
    ScanInv w d len (scanRun len d evs c) := by
  induction evs generalizing c with
  | nil => exact h
  | cons e es ih =>
    obtain ⟨t, ht⟩ := hp
    obtain ⟨t1, ht1⟩ := arrived_grows len d es (e.step len d c)
    have hp1 : ∃ t, (e.step len d c).arrived ++ t = w ++ [d] := by
      refine ⟨t1 ++ t, ?_⟩
      rw [← List.append_assoc, ← ht1]
      exact ht
    have hstep : ScanInv w d len (e.step len d c) := by
      cases e with
      | recv b => exact recv_keeps_ScanInv w d len b c h hp1
      | poll => exact (poll_ScanInv w d len c hw hL hL32 h hp1).1
    exact ih (e.step len d c) hstep ⟨t, ht⟩

/-- One call of `hal_uart_get_bytes_until` in a polling loop while only bytes of
the line `w` have arrived: the invariant after it. -/
theorem poll_within (w : List Byte) (d : Byte) (len : Nat) (c : ScanCfg)
    (hw : d ∉ w) (hL : w.length ≤ len) (hL32 : len < 4294967296)
    (h : ScanInv w d len c) (hp : ∃ t, c.arrived ++ t = w) :
    ScanInv w d len (ScanEvent.poll.step len d c) := by
  obtain ⟨hinv, hstr, hph⟩ := h
  have hstep : ScanEvent.poll.step len d c =
      { c with
        st := (hal_uart_get_bytes_until c.st c.str len d).2.1
        str := (hal_uart_get_bytes_until c.st c.str len d).2.2.1 } := rfl
  cases hq : ringContents c.st with
  | nil =>
    have hf : c.st.filled = 0 := by rw [← ringContents_length, hq]; rfl
    rw [hstep, until_empty c.str len d hinv.1 hf]
    exact ⟨hinv, hstr, hph⟩
  | cons x xs =>
    rcases hph with ⟨p1, p2, p3⟩ | ⟨p1, p2, p3, p4⟩
    · obtain ⟨t, ht⟩ := hp
      have e : w = w.take c.st.ind ++ x :: (xs ++ t) := by
        conv => lhs; rw [← ht, p3, hq]
        simp
      have ht2 : w.take c.st.ind ++ x :: (xs ++ t ++ [d]) = w ++ [d] := by
        conv => rhs; rw [e]
        simp
      obtain ⟨sh1, sh2⟩ := stream_head w d x c.st.ind (xs ++ t ++ [d]) p1 hw ht2
      have hd : x ≠ d := by
        intro he
        have := (sh2 he).2
        simp at this
      obtain ⟨e1, e2⟩ := sh1 hd
      have hl : c.st.ind < len := by omega
      obtain ⟨u1, u2, u3, u4, u5⟩ := until_pop c.str len d x xs hinv hq hl
      obtain ⟨v1, v2, v3, v4⟩ := u4 hd
      have hmod : (c.st.ind + 1) % 4294967296 = c.st.ind + 1 :=
        Nat.mod_eq_of_lt (by omega)
      rw [hmod] at v2
      have hil : c.st.ind < c.str.length := by omega
      have htake : (c.str.set c.st.ind x).take (c.st.ind + 1) = w.take (c.st.ind + 1) := by
        rw [(take_drop_set c.str c.st.ind x hil 0).1, p2, take_succ_of_getElem? w _ x e2]
      rw [hstep]
      refine ⟨u1, ?_, Or.inl ⟨?_, ?_, ?_⟩⟩
      · show len ≤ (hal_uart_get_bytes_until c.st c.str len d).2.2.1.length
        rw [v3, List.length_set]; exact hstr
      · show (hal_uart_get_bytes_until c.st c.str len d).2.1.ind ≤ w.length
        rw [v2]; omega
      · show (hal_uart_get_bytes_until c.st c.str len d).2.2.1.take
              (hal_uart_get_bytes_until c.st c.str len d).2.1.ind =
            w.take (hal_uart_get_bytes_until c.st c.str len d).2.1.ind
        rw [v2, v3]; exact htake
      · show c.arrived = w.take (hal_uart_get_bytes_until c.st c.str len d).2.1.ind ++
            ringContents (hal_uart_get_bytes_until c.st c.str len d).2.1
        rw [v2, u2, p3, hq, take_succ_of_getElem? w _ x e2]
        simp
    · rw [p3] at hq
      simp at hq

/-- The invariant holds all along a polling loop in which only bytes of the line
`w` arrive. -/
theorem scanRun_within (w : List Byte) (d : Byte) (len : Nat) (evs : List ScanEvent)
    (c : ScanCfg) (hw : d ∉ w) (hL : w.length ≤ len) (hL32 : len < 4294967296)
    (h : ScanInv w d len c) (hp : ∃ t, (scanRun len d evs c).arrived ++ t = w) :
    ScanInv w d len (scanRun len d evs c) := by
  induction evs generalizing c with
  | nil => exact h
  | cons e es ih =>
    obtain ⟨t, ht⟩ := hp
    obtain ⟨t1, ht1⟩ := arrived_grows len d es (e.step len d c)
    have hp1 : ∃ t, (e.step len d c).arrived ++ t = w := by
      refine ⟨t1 ++ t, ?_⟩
      rw [← List.append_assoc, ← ht1]
      exact ht
    have hstep : ScanInv w d len (e.step len d c) := by
      cases e with
      | recv b =>
        obtain ⟨t2, ht2⟩ := hp1
        exact recv_keeps_ScanInv w d len b c h ⟨t2 ++ [d], by rw [← List.append_assoc, ht2]⟩
      | poll => exact poll_within w d len c hw hL hL32 h hp1
    exact ih (e.step len d c) hstep ⟨t, ht⟩

theorem ISR_rxBuffSize (b : Byte) (s : State) : (ISR_USART_RX b s).rxBuffSize = s.rxBuffSize := by
  unfold ISR_USART_RX
  split_ifs <;> rfl

theorem get_byte_rxBuffSize (s : State) (byt : Byte) :
    (hal_uart_get_byte s byt).2.1.rxBuffSize = s.rxBuffSize := by
  unfold hal_uart_get_byte
  split_ifs <;> rfl

theorem until_rxBuffSize (s : State) (str : List Byte) (len : Nat) (d : Byte) :
    (hal_uart_get_bytes_until s str len d).2.1.rxBuffSize = s.rxBuffSize := by
  have hg := get_byte_rxBuffSize s 0
  unfold hal_uart_get_bytes_until
  simp only []
  split_ifs <;> first | rfl | exact hg

theorem scanRun_rxBuffSize (len : Nat) (d : Byte) (evs : List ScanEvent) (c : ScanCfg) :
    (scanRun len d evs c).st.rxBuffSize = c.st.rxBuffSize := by
  induction evs generalizing c with
  | nil => rfl
  | cons e es ih =>
    simp only [scanRun]
    rw [ih]
    cases e with
    | recv b => exact ISR_rxBuffSize b c.st
    | poll => exact until_rxBuffSize c.st c.str len d

/-- A byte can only have arrived in a ring of nonzero capacity. -/
theorem arrived_capacity (len : Nat) (d : Byte) (evs : List ScanEvent) (c : ScanCfg)
    (h : (scanRun len d evs c).arrived ≠ c.arrived) : 0 < c.st.rxBuffSize := by
  induction evs generalizing c with
  | nil => exact absurd rfl h
  | cons e es ih =>
    simp only [scanRun] at h
    by_cases he : (e.step len d c).arrived = c.arrived
    · rw [← he] at h
      have h2 := ih (e.step len d c) h
      cases e with
      | recv b =>
        have : (ISR_USART_RX b c.st).rxBuffSize = c.st.rxBuffSize := ISR_rxBuffSize b c.st
        rw [← this]; exact h2
      | poll =>
        have := until_rxBuffSize c.st c.str len d
        rw [← this]; exact h2
    · cases e with
      | recv b =>
        simp only [ScanEvent.step] at he
        split_ifs at he with hc
        · omega
        · exact absurd rfl he
      | poll => exact absurd rfl he

/-! ### Installation outcomes -/

theorem baud_divisor_ne_zero {config : hal_uart_config} (h0 : config._baud ≠ 0)
    (h16 : config._baud < 65536) : (config._baud * 16) % 4294967296 ≠ 0 := by
  omega

theorem install_too_large (F_CPU : Nat) (calloc_ok : Bool) (config : hal_uart_config)
    (s : State) (h : config._buffSize > MAX_HAL_UART_BUFF_SIZE) :
    hal_uart_driver_install F_CPU calloc_ok config s =
      some (HAL_INV_PARAMS,
        { s with
          hal_uart_driver_installed := false, rxBuffSize := 0, inPos := 0, outPos := 0,
          filled := 0, num_overflows := 0 }) := by
  unfold hal_uart_driver_install
  simp only [if_pos h]

theorem install_no_memory (F_CPU : Nat) (config : hal_uart_config)
    (s : State) (h : config._buffSize ≤ MAX_HAL_UART_BUFF_SIZE) :
    hal_uart_driver_install F_CPU false config s =
      some (HAL_FAIL,
        { s with
          hal_uart_driver_installed := false, rxBuffSize := 0, inPos := 0, outPos := 0,
          filled := 0, num_overflows := 0, rxBuffer := none }) := by
  unfold hal_uart_driver_install
  have h1 : ¬ config._buffSize > MAX_HAL_UART_BUFF_SIZE := Nat.not_lt.2 h
  simp only [if_neg h1, if_true]

theorem install_bad_parity (F_CPU : Nat) (config : hal_uart_config)
    (s : State) (h : config._buffSize ≤ MAX_HAL_UART_BUFF_SIZE)
    (hp : ¬ (config._parity = NO_PARITY ∨ config._parity = EVEN_PARITY ∨
      config._parity = ODD_PARITY)) :
    hal_uart_driver_install F_CPU true config s =
      some (HAL_INV_PARAMS,
        { s with
          hal_uart_driver_installed := false, rxBuffSize := 0, inPos := 0, outPos := 0,
          filled := 0, num_overflows := 0, rxBuffer := none, live := s.live + 1 - 1 }) := by
  have hn : parity_ucsrc 6 config._parity = none := by
    cases hq : parity_ucsrc 6 config._parity with
    | none => rfl
    | some u =>
      have := (parity_ucsrc_isSome 6 config._parity).1 (by rw [hq]; rfl)
      exact absurd this hp
  unfold hal_uart_driver_install
  have h1 : ¬ config._buffSize > MAX_HAL_UART_BUFF_SIZE := Nat.not_lt.2 h
  have h2 : ¬ (true = false) := by decide
  simp only [if_neg h1, if_neg h2, hn]

theorem install_succeeds (F_CPU : Nat) (config : hal_uart_config) (s : State)
    (h : config._buffSize ≤ MAX_HAL_UART_BUFF_SIZE)
    (hp : config._parity = NO_PARITY ∨ config._parity = EVEN_PARITY ∨
      config._parity = ODD_PARITY)
    (hb : (config._baud * 16) % 4294967296 ≠ 0) :
    ∃ s1, hal_uart_driver_install F_CPU true config s = some (HAL_NO_ERROR, s1) := by
  have h1 : ¬ config._buffSize > MAX_HAL_UART_BUFF_SIZE := Nat.not_lt.2 h
  have h2 : ¬ (true = false) := by decide
  obtain ⟨u, hu⟩ := Option.isSome_iff_exists.1 ((parity_ucsrc_isSome 6 config._parity).2 hp)
  obtain ⟨p, hq⟩ := Option.isSome_iff_exists.1 ((BAUD_PRESCALER_isSome F_CPU config).2 hb)
  unfold hal_uart_driver_install
  simp only [if_neg h1, if_neg h2, hu, hq]
  exact ⟨_, rfl⟩

theorem install_zero_baud (F_CPU : Nat) (config : hal_uart_config) (s : State)
    (h : config._buffSize ≤ MAX_HAL_UART_BUFF_SIZE)
    (hp : config._parity = NO_PARITY ∨ config._parity = EVEN_PARITY ∨
      config._parity = ODD_PARITY)
    (hb : (config._baud * 16) % 4294967296 = 0) :
    hal_uart_driver_install F_CPU true config s = none := by
  have h1 : ¬ config._buffSize > MAX_HAL_UART_BUFF_SIZE := Nat.not_lt.2 h
  have h2 : ¬ (true = false) := by decide
  obtain ⟨u, hu⟩ := Option.isSome_iff_exists.1 ((parity_ucsrc_isSome 6 config._parity).2 hp)
  have hq : BAUD_PRESCALER F_CPU config = none := by
    unfold BAUD_PRESCALER
    simp only [hb, if_true]
  unfold hal_uart_driver_install
  simp only [if_neg h1, if_neg h2, hu, hq]

/-- The driver is marked installed after a call of `hal_uart_driver_install` that
returns exactly when the status is `HAL_NO_ERROR`. -/
theorem install_installed_iff {F_CPU : Nat} {calloc_ok : Bool} {config : hal_uart_config}
    {s s1 : State} {e : hal_error}
    (h : hal_uart_driver_install F_CPU calloc_ok config s = some (e, s1)) :
    s1.hal_uart_driver_installed = true ↔ e = HAL_NO_ERROR := by
  unfold hal_uart_driver_install at h
  simp only [] at h
  split_ifs at h with h1 h2
  · simp only [Option.some.injEq, Prod.mk.injEq] at h
    obtain ⟨he, hs⟩ := h
    subst he hs
    simp
  · simp only [Option.some.injEq, Prod.mk.injEq] at h
    obtain ⟨he, hs⟩ := h
    subst he hs
    simp
  · cases hp : parity_ucsrc 6 config._parity with
    | none =>
      simp only [hp, Option.some.injEq, Prod.mk.injEq] at h
      obtain ⟨he, hs⟩ := h
      subst he hs
      simp
    | some u =>
      cases hq : BAUD_PRESCALER F_CPU config with
      | none => simp [hp, hq] at h
      | some p =>
        simp only [hp, hq, Option.some.injEq, Prod.mk.injEq] at h
        obtain ⟨he, hs⟩ := h
        subst he hs
        simp

/-! ## Lemmas on the scan cursor and the lifecycle -/

theorem until_ind_le (s : State) (str : List Byte) (len : Nat) (d : Byte)
    (h : s.ind ≤ len) : (hal_uart_get_bytes_until s str len d).2.1.ind ≤ len := by
  have hg : (hal_uart_get_byte s 0).2.1.ind = s.ind := by
    unfold hal_uart_get_byte
    split_ifs <;> rfl
  unfold hal_uart_get_bytes_until
  simp only []
  split_ifs with h1 h2 h3 h4
  · exact Nat.zero_le _
  · show ((hal_uart_get_byte s 0).2.1.ind + 1) % 4294967296 ≤ len
    rw [hg]
    exact Nat.le_trans (Nat.mod_le _ _) h3
  · exact Nat.zero_le _
  · exact h
  · exact h

theorem get_byte_ind (s : State) (byt : Byte) : (hal_uart_get_byte s byt).2.1.ind = s.ind := by
  unfold hal_uart_get_byte
  split_ifs <;> rfl

theorem ISR_ind (b : Byte) (s : State) : (ISR_USART_RX b s).ind = s.ind := by
  unfold ISR_USART_RX
  split_ifs <;> rfl

theorem get_bytes_num_loop_ind (n : Nat) (s : State) (str : List Byte) (i : Nat) (ch : Byte) :
    (get_bytes_num_loop n s str i ch).1.ind = s.ind := by
  induction n generalizing s str i ch with
  | zero => rfl
  | succ n ih =>
    simp only [get_bytes_num_loop]
    rw [ih, get_byte_ind]

theorem get_bytes_num_ind (s : State) (str : List Byte) (n : Nat) :
    (hal_uart_get_bytes_num s str n).2.1.ind = s.ind := by
  unfold hal_uart_get_bytes_num
  split_ifs
  · exact get_bytes_num_loop_ind n s str 0 0
  · rfl
  · rfl

theorem uninstall_ind (s : State) : (hal_uart_driver_uninstall s).2.ind = s.ind := by
  unfold hal_uart_driver_uninstall
  split_ifs <;> rfl

theorem install_ind {F_CPU : Nat} {calloc_ok : Bool} {config : hal_uart_config}
    {s s1 : State} {e : hal_error}
    (h : hal_uart_driver_install F_CPU calloc_ok config s = some (e, s1)) :
    s1.ind = s.ind := by
  unfold hal_uart_driver_install at h
  simp only [] at h
  split_ifs at h with h1 h2
  · simp only [Option.some.injEq, Prod.mk.injEq] at h
    rw [← h.2]
  · simp only [Option.some.injEq, Prod.mk.injEq] at h
    rw [← h.2]
  · cases hp : parity_ucsrc 6 config._parity with
    | none =>
      simp only [hp, Option.some.injEq, Prod.mk.injEq] at h
      rw [← h.2]
    | some u =>
      cases hq : BAUD_PRESCALER F_CPU config with
      | none => simp [hp, hq] at h
      | some p =>
        simp only [hp, hq, Option.some.injEq, Prod.mk.injEq] at h
        rw [← h.2]

/-- The scan cursor stays at most `len` along every sequence of calls whose
`hal_uart_get_bytes_until` calls all pass `*len = len`. -/
theorem runApi_ind_le (F_CPU len : Nat) (calls : List ApiCall) (s s1 : State)
    (hlen : ∀ c ∈ calls, c.usesLen len) (h0 : s.ind ≤ len)
    (hrun : runApi F_CPU calls s = some s1) : s1.ind ≤ len := by
  induction calls generalizing s with
  | nil =>
    simp only [runApi, Option.some.injEq] at hrun
    rw [← hrun]
    exact h0
  | cons c cs ih =>
    simp only [runApi] at hrun
    cases hc : c.apply F_CPU s with
    | none => simp [hc] at hrun
    | some s2 =>
      simp only [hc] at hrun
      refine ih s2 (fun c1 hc1 => hlen c1 (List.mem_cons_of_mem _ hc1)) ?_ hrun
      have hu := hlen c (List.mem_cons_self _ _)
      cases c with
      | lifecycle l =>
        cases l with
        | install ok config =>
          simp only [ApiCall.apply, LifecycleCall.apply] at hc
          cases hi : hal_uart_driver_install F_CPU ok config s with
          | none => simp [hi] at hc
          | some r =>
            simp only [hi, Option.map_some', Option.some.injEq] at hc
            rw [← hc, @install_ind F_CPU ok config s r.2 r.1 hi]
            exact h0
        | uninstall =>
          simp only [ApiCall.apply, LifecycleCall.apply, Option.some.injEq] at hc
          rw [← hc, uninstall_ind]
          exact h0
      | activity a =>
        simp only [ApiCall.apply, Option.some.injEq] at hc
        rw [← hc]
        cases a with
        | isr b => exact (ISR_ind b s).symm ▸ h0
        | get_byte byt => exact (get_byte_ind s byt).symm ▸ h0
        | get_bytes_num str n => exact (get_bytes_num_ind s str n).symm ▸ h0
        | get_bytes_until str l d =>
          have hl : l = len := hu
          subst hl
          exact until_ind_le s str l d h0
        | flush => exact h0

/-- A call of `hal_uart_get_bytes_until` stores nothing at an index of the
caller's array that is `len` or more, and keeps the length of the array. -/
theorem until_store_below (s : State) (str : List Byte) (len : Nat) (d : Byte) :
    (hal_uart_get_bytes_until s str len d).2.2.1.length = str.length ∧
      ∀ i, len ≤ i → (hal_uart_get_bytes_until s str len d).2.2.1[i]? = str[i]? := by
  have hg := get_byte_ind s 0
  unfold hal_uart_get_bytes_until
  simp only []
  split_ifs with h1 h2 h3 h4
  · exact ⟨rfl, fun _ _ => rfl⟩
  · refine ⟨List.length_set _ _ _, fun i hi => ?_⟩
    show (str.set (hal_uart_get_byte s 0).2.1.ind (hal_uart_get_byte s 0).2.2)[i]? = str[i]?
    rw [hg]
    exact List.getElem?_set_ne (by omega)
  · exact ⟨rfl, fun _ _ => rfl⟩
  · exact ⟨rfl, fun _ _ => rfl⟩
  · exact ⟨rfl, fun _ _ => rfl⟩

/-- A call of `hal_uart_get_bytes_until` that returns `HAL_NO_ERROR` writes back the
scan cursor it found. -/
theorem until_returns_cursor (s : State) (str : List Byte) (len : Nat) (d : Byte)
    (h : (hal_uart_get_bytes_until s str len d).1 = HAL_NO_ERROR) :
    (hal_uart_get_bytes_until s str len d).2.2.2 = s.ind := by
  have hg := get_byte_ind s 0
  unfold hal_uart_get_bytes_until at h ⊢
  simp only [] at h ⊢
  split_ifs at h ⊢ with h1 h2 h3 h4
  · exact hg
  · rfl

/-- The registers a successful `hal_uart_driver_install` programs. -/
theorem install_ok_regs {F_CPU : Nat} {calloc_ok : Bool} {config : hal_uart_config}
    {s s1 : State}
    (h : hal_uart_driver_install F_CPU calloc_ok config s = some (HAL_NO_ERROR, s1)) :
    ∃ u p, parity_ucsrc 6 config._parity = some u ∧ BAUD_PRESCALER F_CPU config = some p ∧
      s1.UCSR0C = stop_ucsrc u config._stopBits ||| ((1 <<< UCSZ00) ||| (1 <<< UCSZ01)) ∧
      s1.UBRR0L = p % 256 ∧ s1.UBRR0H = (p >>> 8) % 256 := by
  unfold hal_uart_driver_install at h
  simp only [] at h
  split_ifs at h with h1 h2
  · simp at h
  · simp at h
  · cases hp : parity_ucsrc 6 config._parity with
    | none => simp [hp] at h
    | some u =>
      cases hq : BAUD_PRESCALER F_CPU config with
      | none => simp [hp, hq] at h
      | some p =>
        simp only [hp, hq, Option.some.injEq, Prod.mk.injEq, true_and] at h
        subst h
        exact ⟨u, p, rfl, rfl, rfl, rfl, rfl⟩

/-- The three values the parity `switch` gives to `ucsrc`. -/
theorem parity_ucsrc_values {p u : Nat} (h : parity_ucsrc 6 p = some u) :
    u = 6 ∨ u = 38 ∨ u = 54 := by
  unfold parity_ucsrc at h
  split_ifs at h
  · left
    rw [← Option.some.inj h]
    decide
  · right; left
    rw [← Option.some.inj h]
    decide
  · right; right
    rw [← Option.some.inj h]
    decide

/-- The `USBS0` bit of the mode register value is set exactly for two stop bits. -/
theorem usbs0_iff {u : Nat} (hu : u = 6 ∨ u = 38 ∨ u = 54) (stopBits : Nat) :
    (stop_ucsrc u stopBits ||| ((1 <<< UCSZ00) ||| (1 <<< UCSZ01))) &&& (1 <<< USBS0) ≠ 0 ↔
      stopBits = 2 := by
  unfold stop_ucsrc
  by_cases h2 : stopBits = 2
  · rw [if_pos h2]
    rcases hu with h | h | h <;> subst h <;> simp only [h2, iff_true] <;> decide
  · rw [if_neg h2]
    rcases hu with h | h | h <;> subst h <;> simp only [h2, iff_false, not_not] <;> decide

/-- The status of `hal_uart_driver_install` does not depend on `_stopBits`. -/
theorem install_status_stopBits (F_CPU : Nat) (calloc_ok : Bool) (config : hal_uart_config)
    (s : State) (sb : Nat) :
    (hal_uart_driver_install F_CPU calloc_ok { config with _stopBits := sb } s).map
        (fun r => r.1) =
      (hal_uart_driver_install F_CPU calloc_ok config s).map (fun r => r.1) := by
  have hb : BAUD_PRESCALER F_CPU { config with _stopBits := sb } =
      BAUD_PRESCALER F_CPU config := rfl
  unfold hal_uart_driver_install
  simp only [hb]
  split_ifs with h1 h2
  · rfl
  · rfl
  · cases hp : parity_ucsrc 6 config._parity with
    | none => rfl
    | some u =>
      cases hq : BAUD_PRESCALER F_CPU config with
      | none => rfl
      | some p => rfl

/-- The value of the macro `BAUD_PRESCALER` when the quotient is at least 1. -/
theorem BAUD_PRESCALER_value (F_CPU : Nat) (config : hal_uart_config)
    (hF : F_CPU < 4294967296) (hb : config._baud < 65536)
    (hpos : 0 < 16 * config._baud) (hle : 16 * config._baud ≤ F_CPU) :
    BAUD_PRESCALER F_CPU config = some (F_CPU / (16 * config._baud) - 1) := by
  have e1 : (config._baud * 16) % 4294967296 = 16 * config._baud := by omega
  have e2 : F_CPU % 4294967296 = F_CPU := Nat.mod_eq_of_lt hF
  have hq1 : 1 ≤ F_CPU / (16 * config._baud) := (Nat.one_le_div_iff hpos).2 hle
  have hq2 : F_CPU / (16 * config._baud) ≤ F_CPU := Nat.div_le_self _ _
  have hne : ¬ (16 * config._baud = 0) := by omega
  unfold BAUD_PRESCALER
  simp only [e1, e2, if_neg hne, Option.some.injEq]
  generalize F_CPU / (16 * config._baud) = q at hq1 hq2 ⊢
  omega

/-! ## The ring invariant along receive and read activity -/

theorem get_bytes_num_loop_inv (n : Nat) {s : State} (str : List Byte) (i : Nat) (ch : Byte)
    (h : RingInv s) (hn : n ≤ s.filled) :
    RingInv (get_bytes_num_loop n s str i ch).1 ∧
      (get_bytes_num_loop n s str i ch).1.rxBuffSize = s.rxBuffSize := by
  induction n generalizing s str i ch with
  | zero => exact ⟨h, rfl⟩
  | succ n ih =>
    have hf : s.filled ≠ 0 := by omega
    have hs := get_byte_some ch h hf
    have hfil : (hal_uart_get_byte s ch).2.1.filled = s.filled - 1 := by rw [hs]
    obtain ⟨i1, i2⟩ := ih (str.set i (hal_uart_get_byte s ch).2.2) (i + 1)
      (hal_uart_get_byte s ch).2.2 (get_byte_inv ch h) (by omega)
    simp only [get_bytes_num_loop]
    exact ⟨i1, by rw [i2, get_byte_rxBuffSize]⟩

theorem get_bytes_num_inv {s : State} (str : List Byte) (n : Nat) (h : RingInv s) :
    RingInv (hal_uart_get_bytes_num s str n).2.1 ∧
      (hal_uart_get_bytes_num s str n).2.1.rxBuffSize = s.rxBuffSize := by
  by_cases hn : n ≤ s.filled
  · have hge : s.filled ≥ n := hn
    have e : hal_uart_get_bytes_num s str n =
        (HAL_NO_ERROR, (get_bytes_num_loop n s str 0 0).1,
          (get_bytes_num_loop n s str 0 0).2) := by
      simp only [hal_uart_get_bytes_num, h.1, hge, if_true]
    rw [e]
    exact get_bytes_num_loop_inv n str 0 0 h hn
  · rw [get_bytes_num_none str n h.1 (by omega)]
    exact ⟨h, rfl⟩

theorem until_inv {s : State} (str : List Byte) (len : Nat) (d : Byte) (h : RingInv s) :
    RingInv (hal_uart_get_bytes_until s str len d).2.1 := by
  have hg : RingInv (hal_uart_get_byte s 0).2.1 := get_byte_inv 0 h
  unfold hal_uart_get_bytes_until
  simp only []
  split_ifs
  · exact hg
  · exact hg
  · exact h
  · exact h
  · exact h

theorem runActivity_inv (acts : List Activity) {s : State} (h : RingInv s) :
    RingInv (runActivity acts s) ∧ (runActivity acts s).rxBuffSize = s.rxBuffSize := by
  induction acts generalizing s with
  | nil => exact ⟨h, rfl⟩
  | cons a as ih =>
    have hstep : RingInv (a.apply s) ∧ (a.apply s).rxBuffSize = s.rxBuffSize := by
      cases a with
      | isr b =>
        refine ⟨?_, ISR_rxBuffSize b s⟩
        by_cases hf : s.filled < s.rxBuffSize
        · exact ISR_room_inv b h hf
        · show RingInv (ISR_USART_RX b s)
          rw [ISR_full b h.1 hf]
          exact h
      | get_byte byt => exact ⟨get_byte_inv byt h, get_byte_rxBuffSize s byt⟩
      | get_bytes_num str n => exact get_bytes_num_inv str n h
      | get_bytes_until str len d =>
        exact ⟨until_inv str len d h, until_rxBuffSize s str len d⟩
      | flush => exact ⟨(flush_inv h).1, rfl⟩
    obtain ⟨i1, i2⟩ := ih hstep.1
    exact ⟨i1, by rw [← hstep.2]; exact i2⟩

/-! ## Transmit helpers -/

/-- The busy-wait ends when the transmitter is ready within `fuel` reads. -/
theorem wait_UDRE0_ends (UCSR0A : Nat → Nat) (fuel t : Nat)
    (h : ∃ k, k < fuel ∧ UCSR0A (t + k) &&& (1 <<< UDRE0) ≠ 0) :
    ∃ t1, wait_UDRE0 UCSR0A fuel t = some t1 := by
  induction fuel generalizing t with
  | zero =>
    obtain ⟨k, hk, -⟩ := h
    exact absurd hk (Nat.not_lt_zero k)
  | succ fuel ih =>
    by_cases h0 : UCSR0A t &&& (1 <<< UDRE0) = 0
    · obtain ⟨k, hk, hr⟩ := h
      cases k with
      | zero => exact absurd h0 hr
      | succ k =>
        have e : t + (k + 1) = t + 1 + k := by omega
        rw [e] at hr
        obtain ⟨t1, ht1⟩ := ih (t + 1) ⟨k, by omega, hr⟩
        exact ⟨t1, by simp only [wait_UDRE0, if_pos h0, ht1]⟩
    · exact ⟨t + 1, by simp only [wait_UDRE0, if_neg h0]⟩

/-- On an installed driver with a transmitter that becomes ready within `fuel`
reads, `hal_uart_write` returns `HAL_NO_ERROR` and transmits the byte. -/
theorem write_sends (UCSR0A : Nat → Nat) (fuel : Nat) (ch : Byte) (s : State) (t : Nat)
    (hi : s.hal_uart_driver_installed = true)
    (hr : ∀ t, ∃ k, k < fuel ∧ UCSR0A (t + k) &&& (1 <<< UDRE0) ≠ 0) :
    ∃ t1, hal_uart_write UCSR0A fuel ch s t =
      some (HAL_NO_ERROR, { s with tx := s.tx ++ [ch] }, t1) := by
  obtain ⟨t1, ht1⟩ := wait_UDRE0_ends UCSR0A fuel t (hr t)
  refine ⟨t1, ?_⟩
  have hn : ¬ (s.hal_uart_driver_installed = false) := by rw [hi]; decide
  simp only [hal_uart_write, if_neg hn, ht1]

theorem write_not_installed (UCSR0A : Nat → Nat) (fuel : Nat) (ch : Byte) (s : State)
    (t : Nat) (hi : s.hal_uart_driver_installed = false) :
    hal_uart_write UCSR0A fuel ch s t = some (HAL_FAIL, s, t) := by
  simp only [hal_uart_write, if_pos hi]

/-- The loop of `hal_uart_write_bytes` on an installed driver: it transmits the
first `len` bytes of the array; its status is `HAL_NO_ERROR` once a byte has been
sent and the initial value of `err` when `len` is 0. -/
theorem write_bytes_loop_sends (UCSR0A : Nat → Nat) (fuel : Nat) (len : Nat)
    (str : List Byte) (err : hal_error) (s : State) (t : Nat)
    (hi : s.hal_uart_driver_installed = true)
    (hr : ∀ t, ∃ k, k < fuel ∧ UCSR0A (t + k) &&& (1 <<< UDRE0) ≠ 0)
    (hl : len ≤ str.length) :
    ∃ t1, write_bytes_loop UCSR0A fuel len str err s t =
      some (if len = 0 then err else HAL_NO_ERROR,
        { s with tx := s.tx ++ str.take len }, t1) := by
  induction len generalizing str err s t with
  | zero => exact ⟨t, by simp [write_bytes_loop]⟩
  | succ n ih =>
    cases str with
    | nil => simp at hl
    | cons c rest =>
      obtain ⟨t1, h1⟩ := write_sends UCSR0A fuel c s t hi hr
      obtain ⟨t2, h2⟩ := ih rest HAL_NO_ERROR { s with tx := s.tx ++ [c] } t1 hi
        (by simpa using hl)
      refine ⟨t2, ?_⟩
      have e : write_bytes_loop UCSR0A fuel (n + 1) (c :: rest) err s t =
          write_bytes_loop UCSR0A fuel n rest HAL_NO_ERROR
            { s with tx := s.tx ++ [c] } t1 := by
        simp only [write_bytes_loop, h1, ne_eq, not_true_eq_false, if_false]
      rw [e, h2]
      simp

/-- The loop of `hal_uart_print` on an installed driver and a string `body`
followed by `'\0'`: it transmits `body`; its status is `HAL_NO_ERROR` once a byte
has been sent and the initial value of `err` for the empty string. -/
theorem print_loop_sends (UCSR0A : Nat → Nat) (fuel : Nat) (body rest : List Byte)
    (err : hal_error) (s : State) (t : Nat)
    (hi : s.hal_uart_driver_installed = true)
    (hr : ∀ t, ∃ k, k < fuel ∧ UCSR0A (t + k) &&& (1 <<< UDRE0) ≠ 0)
    (hb : ∀ c ∈ body, c ≠ 0) :
    ∃ t1, print_loop UCSR0A fuel (body ++ 0 :: rest) err s t =
      some (if body = [] then err else HAL_NO_ERROR, { s with tx := s.tx ++ body }, t1) := by
  induction body generalizing err s t with
  | nil => exact ⟨t, by simp [print_loop]⟩
  | cons c cs ih =>
    have hc : c ≠ 0 := hb c (List.mem_cons_self _ _)
    obtain ⟨t1, h1⟩ := write_sends UCSR0A fuel c s t hi hr
    obtain ⟨t2, h2⟩ := ih HAL_NO_ERROR { s with tx := s.tx ++ [c] } t1 hi
      (fun x hx => hb x (List.mem_cons_of_mem _ hx))
    refine ⟨t2, ?_⟩
    have e : print_loop UCSR0A fuel (c :: (cs ++ 0 :: rest)) err s t =
        print_loop UCSR0A fuel (cs ++ 0 :: rest) HAL_NO_ERROR
          { s with tx := s.tx ++ [c] } t1 := by
      simp only [print_loop, if_neg hc, h1, ne_eq, not_true_eq_false, if_false]
    rw [List.cons_append, e, h2]
    simp

/-- For a nonzero length, on an installed driver, `hal_uart_write_bytes_nl`
returns `HAL_NO_ERROR` and transmits the first `len` bytes followed by `'\n'`. -/
theorem write_bytes_nl_sends (UCSR0A : Nat → Nat) (fuel : Nat) (str : List Byte)
    (len : Nat) (s : State) (t : Nat)
    (hi : s.hal_uart_driver_installed = true)
    (hr : ∀ t, ∃ k, k < fuel ∧ UCSR0A (t + k) &&& (1 <<< UDRE0) ≠ 0)
    (hl : len ≤ str.length) (h0 : len ≠ 0) :
    ∃ t1, hal_uart_write_bytes_nl UCSR0A fuel str len s t =
      some (HAL_NO_ERROR, { s with tx := s.tx ++ str.take len ++ [10] }, t1) := by
  obtain ⟨t1, h1⟩ := write_bytes_loop_sends UCSR0A fuel len str HAL_FAIL s t hi hr hl
  rw [if_neg h0] at h1
  obtain ⟨t2, h2⟩ := write_sends UCSR0A fuel 10 { s with tx := s.tx ++ str.take len } t1 hi hr
  exact ⟨t2, by simp only [hal_uart_write_bytes_nl, hal_uart_write_bytes, h1, if_true, h2]⟩

/-- For a nonempty string, on an installed driver, `hal_uart_println` returns
`HAL_NO_ERROR` and transmits the string followed by `'\n'`. -/
theorem println_sends (UCSR0A : Nat → Nat) (fuel : Nat) (body rest : List Byte)
    (s : State) (t : Nat)
    (hi : s.hal_uart_driver_installed = true)
    (hr : ∀ t, ∃ k, k < fuel ∧ UCSR0A (t + k) &&& (1 <<< UDRE0) ≠ 0)
    (hb : ∀ c ∈ body, c ≠ 0) (h0 : body ≠ []) :
    ∃ t1, hal_uart_println UCSR0A fuel (body ++ 0 :: rest) s t =
      some (HAL_NO_ERROR, { s with tx := s.tx ++ body ++ [10] }, t1) := by
  obtain ⟨t1, h1⟩ := print_loop_sends UCSR0A fuel body rest HAL_FAIL s t hi hr hb
  rw [if_neg h0] at h1
  obtain ⟨t2, h2⟩ := write_sends UCSR0A fuel 10 { s with tx := s.tx ++ body } t1 hi hr
  exact ⟨t2, by simp only [hal_uart_println, hal_uart_print, h1, if_true, h2]⟩

/-- For the length 0, `hal_uart_write_bytes_nl` returns the initial `HAL_FAIL` of
`hal_uart_write_bytes` and transmits nothing, installed or not. -/
theorem write_bytes_nl_zero (UCSR0A : Nat → Nat) (fuel : Nat) (str : List Byte)
    (s : State) (t : Nat) :
    hal_uart_write_bytes_nl UCSR0A fuel str 0 s t = some (HAL_FAIL, s, t) := by
  simp [hal_uart_write_bytes_nl, hal_uart_write_bytes, write_bytes_loop]

/-- For the empty string, `hal_uart_println` returns the initial `HAL_FAIL` of
`hal_uart_print` and transmits nothing, installed or not. -/
theorem println_empty (UCSR0A : Nat → Nat) (fuel : Nat) (rest : List Byte)
    (s : State) (t : Nat) :
    hal_uart_println UCSR0A fuel (0 :: rest) s t = some (HAL_FAIL, s, t) := by
  simp [hal_uart_println, hal_uart_print, print_loop]

/-! ## The claims -/

/-- C1. Round trip: from the state left by a successful install with capacity
`config._buffSize` (which is then at most 200), running the receive interrupt
handler once per byte of `bs`, where `bs` is no longer than the capacity, and
then calling `hal_uart_get_byte` `bs.length` times returns `HAL_NO_ERROR` each
time and yields the bytes of `bs` in the same order. -/
theorem C1_round_trip (F_CPU : Nat) (calloc_ok : Bool) (config : hal_uart_config)
    (s0 s1 : State) (bs : List Byte) (byt : Byte)
    (hinst : hal_uart_driver_install F_CPU calloc_ok config s0 = some (HAL_NO_ERROR, s1))
    (hlen : bs.length ≤ config._buffSize) :
    config._buffSize ≤ 200 ∧
      (drain bs.length (feed bs s1) byt).1 = bs.map (fun b => (HAL_NO_ERROR, b)) := by
  obtain ⟨h1, -, -, -, h5, -, -, h8, h9, -, -⟩ := install_ok hinst
  obtain ⟨hinv, hemp⟩ := install_ok_inv hinst
  obtain ⟨f1, f2, -, f4, -⟩ := feed_inv bs hinv (by rw [h9]; decide)
  have hfill : (feed bs s1).filled = bs.length := by
    rw [← ringContents_length, f4, hemp, h5, h8]
    simp [hlen]
  obtain ⟨d1, -⟩ := drain_inv bs.length byt f1 (by omega)
  refine ⟨h1, ?_⟩
  rw [d1, f4, hemp, h5, h8]
  simp [List.take_of_length_le hlen]

theorem C1_round_trip_witness :
    hal_uart_driver_install 16000000 true (echoConfig 50) State.boot =
        some (HAL_NO_ERROR, echoInstalled 50) ∧
      (drain 3 (feed [97, 98, 99] (echoInstalled 50)) 0).1 =
        [(HAL_NO_ERROR, 97), (HAL_NO_ERROR, 98), (HAL_NO_ERROR, 99)] :=
  ⟨by decide,
    (C1_round_trip 16000000 true (echoConfig 50) State.boot (echoInstalled 50) [97, 98, 99] 0
      (by decide) (by decide)).2⟩


/-- C2 (amended). Overflow policy: from the state left by a successful install
with capacity `c = config._buffSize`, feeding `c + k` bytes to the interrupt
handler without draining, where `0 < k < 2 ^ 32`, leaves `filled = c` and the
overflow counter equal to `k`; the ring holds the first `c` bytes fed, and
draining with `hal_uart_get_byte` returns exactly those bytes in order, after
which the ring is empty: the `k` later bytes are discarded. -/
theorem C2_overflow_policy (F_CPU : Nat) (calloc_ok : Bool) (config : hal_uart_config)
    (s0 s1 : State) (bs : List Byte) (k : Nat) (byt : Byte)
    (hinst : hal_uart_driver_install F_CPU calloc_ok config s0 = some (HAL_NO_ERROR, s1))
    (hk : 0 < k) (hk32 : k < 4294967296) (hlen : bs.length = config._buffSize + k) :
    (feed bs s1).filled = config._buffSize ∧
      (feed bs s1).num_overflows = k ∧
      ringContents (feed bs s1) = bs.take config._buffSize ∧
      (drain config._buffSize (feed bs s1) byt).1 =
        (bs.take config._buffSize).map (fun b => (HAL_NO_ERROR, b)) ∧
      ringContents (drain config._buffSize (feed bs s1) byt).2 = [] ∧
      (drain config._buffSize (feed bs s1) byt).2.num_overflows = k := by
  obtain ⟨h1, -, -, -, h5, -, -, h8, h9, -, -⟩ := install_ok hinst
  obtain ⟨hinv, hemp⟩ := install_ok_inv hinst
  obtain ⟨f1, f2, -, f4, f5⟩ := feed_inv bs hinv (by rw [h9]; decide)
  rw [hemp, h5, h8, Nat.sub_zero, List.nil_append] at f4
  rw [h9, h5, h8, Nat.sub_zero, hlen, Nat.zero_add, Nat.add_sub_cancel_left,
    Nat.mod_eq_of_lt hk32] at f5
  have hfill : (feed bs s1).filled = config._buffSize := by
    rw [← ringContents_length, f4, List.length_take, hlen]
    omega
  obtain ⟨d1, -, d3, -, d5⟩ := drain_inv config._buffSize byt f1 (by omega)
  refine ⟨hfill, f5, f4, ?_, ?_, ?_⟩
  · rw [d1, f4, List.take_take, Nat.min_self]
  · rw [d3, f4]
    simp
  · rw [d5, f5]

theorem C2_overflow_policy_witness :
    hal_uart_driver_install 16000000 true (echoConfig 3) State.boot =
        some (HAL_NO_ERROR, echoInstalled 3) ∧
      (feed [1, 2, 3, 4, 5] (echoInstalled 3)).filled = 3 ∧
      (feed [1, 2, 3, 4, 5] (echoInstalled 3)).num_overflows = 2 ∧
      (drain 3 (feed [1, 2, 3, 4, 5] (echoInstalled 3)) 0).1 =
        [(HAL_NO_ERROR, 1), (HAL_NO_ERROR, 2), (HAL_NO_ERROR, 3)] :=
  have h := C2_overflow_policy 16000000 true (echoConfig 3) State.boot (echoInstalled 3)
    [1, 2, 3, 4, 5] 2 0 (by decide) (by decide) (by decide) (by decide)
  ⟨by decide, h.1, h.2.1, h.2.2.2.1⟩

/-- C2 as stated fails for `k = 2 ^ 32`: with capacity 1, after `1 + 2 ^ 32` bytes
have been fed without draining, the 32-bit overflow counter has wrapped to 0 and
is not `k`. -/
theorem C2_overflow_counter_wraps :
    hal_uart_driver_install 16000000 true (echoConfig 1) State.boot =
        some (HAL_NO_ERROR, echoInstalled 1) ∧
      (List.replicate (1 + 4294967296) 0).length = (echoConfig 1)._buffSize + 4294967296 ∧
      (feed (List.replicate (1 + 4294967296) 0) (echoInstalled 1)).num_overflows = 0 ∧
      (feed (List.replicate (1 + 4294967296) 0) (echoInstalled 1)).num_overflows
        ≠ 4294967296 := by
  have hinv : RingInv (echoInstalled 1) := by decide
  have ho : (echoInstalled 1).num_overflows < 4294967296 := by decide
  have h5 := (feed_inv (List.replicate (1 + 4294967296) 0) hinv ho).2.2.2.2
  rw [List.length_replicate] at h5
  have e : ((echoInstalled 1).num_overflows +
      (1 + 4294967296 - ((echoInstalled 1).rxBuffSize - (echoInstalled 1).filled))) %
      4294967296 = 0 := by decide
  rw [e] at h5
  refine ⟨by decide, List.length_replicate _ _, h5, ?_⟩
  rw [h5]
  decide

/-- C3. Strict FIFO refinement: on a driver state `s` that satisfies the ring
invariant, with the abstraction `ringContents` (the `filled` bytes read
circularly from `outPos`), every sequence of whole operations (interrupt
handler, `hal_uart_get_byte`, `hal_uart_get_bytes_num`, `hal_uart_flush_buffer`)
keeps the invariant and yields the same observations and the same final queue
as the bounded queue of capacity `rxBuffSize` of the specification.  Operation
by operation: the queue is never longer than the capacity; the interrupt handler
appends its byte when the queue is shorter than the capacity and otherwise
changes only the overflow counter; `hal_uart_get_byte` removes and returns the
head; `hal_uart_get_bytes_num` with `n` at most the queue length removes and
returns the first `n` elements; `hal_uart_flush_buffer` gives the empty queue. -/
theorem C3_fifo_refinement (s : State) (h : RingInv s) :
    (∀ ops : List RingOp,
      RingInv (RingOp.run ops s).1 ∧
        ringContents (RingOp.run ops s).1 =
          (FifoSpec.run s.rxBuffSize ops (ringContents s)).1 ∧
        (RingOp.run ops s).2 = (FifoSpec.run s.rxBuffSize ops (ringContents s)).2) ∧
      (ringContents s).length ≤ s.rxBuffSize ∧
      (∀ b : Byte, (ringContents s).length < s.rxBuffSize →
        ringContents (ISR_USART_RX b s) = ringContents s ++ [b]) ∧
      (∀ b : Byte, ¬ (ringContents s).length < s.rxBuffSize →
        ISR_USART_RX b s = { s with num_overflows := (s.num_overflows + 1) % 4294967296 } ∧
          ringContents (ISR_USART_RX b s) = ringContents s) ∧
      (∀ (byt x : Byte) (xs : List Byte), ringContents s = x :: xs →
        (hal_uart_get_byte s byt).1 = HAL_NO_ERROR ∧ (hal_uart_get_byte s byt).2.2 = x ∧
          ringContents (hal_uart_get_byte s byt).2.1 = xs) ∧
      (∀ (str : List Byte) (n : Nat), n ≤ (ringContents s).length → n ≤ str.length →
        (hal_uart_get_bytes_num s str n).1 = HAL_NO_ERROR ∧
          (hal_uart_get_bytes_num s str n).2.2 = (ringContents s).take n ++ str.drop n ∧
          ringContents (hal_uart_get_bytes_num s str n).2.1 = (ringContents s).drop n) ∧
      ringContents (hal_uart_flush_buffer s) = [] := by
  refine ⟨?_, ?_, ?_, ?_, ?_, ?_, (flush_inv h).2.1⟩
  · intro ops
    obtain ⟨r1, -, r3, r4⟩ := run_simulates ops h
    exact ⟨r1, r3, r4⟩
  · rw [ringContents_length]
    exact h.2.2.2.1
  · intro b hb
    rw [ringContents_length] at hb
    exact ISR_room_contents b h hb
  · intro b hb
    rw [ringContents_length] at hb
    rw [ISR_full b h.1 hb]
    exact ⟨rfl, rfl⟩
  · intro byt x xs hq
    have hf : s.filled ≠ 0 := by
      rw [← ringContents_length, hq]
      simp
    have hc := get_byte_contents byt h hf
    rw [hq] at hc
    have hs := get_byte_some byt h hf
    injection hc with hx hxs
    refine ⟨by rw [hs], hx.symm, hxs.symm⟩
  · intro str n hn hl
    rw [ringContents_length] at hn
    obtain ⟨g1, g2, -, g4, -⟩ := get_bytes_num_some str n h hn hl
    exact ⟨g1, g2, g4⟩

theorem C3_fifo_refinement_witness :
    hal_uart_driver_install 16000000 true (echoConfig 3) State.boot =
        some (HAL_NO_ERROR, echoInstalled 3) ∧
      RingInv (echoInstalled 3) ∧
      (RingOp.run
        [.isr 1, .isr 2, .get_byte, .isr 3, .isr 4, .isr 5, .get_bytes_num 2, .get_bytes_num 2,
          .get_byte, .get_byte, .flush] (echoInstalled 3)).2 =
        [none, none, some (HAL_NO_ERROR, [1]), none, none, none, some (HAL_NO_ERROR, [2, 3]),
          some (HAL_NOT_AVAIL, []), some (HAL_NO_ERROR, [4]), some (HAL_NOT_AVAIL, []), none] :=
  ⟨by decide, by decide,
    ((C3_fifo_refinement (echoInstalled 3) (by decide)).1
      [.isr 1, .isr 2, .get_byte, .isr 3, .isr 4, .isr 5, .get_bytes_num 2, .get_bytes_num 2,
        .get_byte, .get_byte, .flush]).2.2.trans (by decide)⟩

/-- C4. Postcondition of `hal_uart_get_byte`: it returns `HAL_FAIL` exactly when
the driver is not installed and `HAL_NOT_AVAIL` exactly when it is installed with
`filled = 0`, and in both cases leaves the driver state and the output location
unchanged; otherwise it returns `HAL_NO_ERROR`, writes `rxBuffer[outPos]` to the
output, decrements `filled`, sets `outPos` to `(outPos + 1) mod rxBuffSize`
(for `outPos` an index of the ring, `outPos < rxBuffSize ≤ 255`, as the ring
invariant gives), and leaves `inPos`, the overflow counter, the scan cursor, the
capacity, the buffer contents and every other field unchanged. -/
theorem C4_get_byte_postcondition (s : State) (byt : Byte) :
    ((hal_uart_get_byte s byt).1 = HAL_FAIL ↔ s.hal_uart_driver_installed = false) ∧
      ((hal_uart_get_byte s byt).1 = HAL_NOT_AVAIL ↔
        (s.hal_uart_driver_installed = true ∧ s.filled = 0)) ∧
      ((s.hal_uart_driver_installed = false ∨ s.filled = 0) →
        (hal_uart_get_byte s byt).2.1 = s ∧ (hal_uart_get_byte s byt).2.2 = byt) ∧
      (s.hal_uart_driver_installed = true → s.filled ≠ 0 →
        (hal_uart_get_byte s byt).1 = HAL_NO_ERROR ∧
          (hal_uart_get_byte s byt).2.2 = s.rxRead s.outPos ∧
          (∀ (buf : List Byte) (h : s.outPos < buf.length), s.rxBuffer = some buf →
            (hal_uart_get_byte s byt).2.2 = buf[s.outPos]) ∧
          (hal_uart_get_byte s byt).2.1.filled = s.filled - 1 ∧
          (s.outPos < s.rxBuffSize → s.rxBuffSize ≤ 255 →
            (hal_uart_get_byte s byt).2.1.outPos = (s.outPos + 1) % s.rxBuffSize) ∧
          (hal_uart_get_byte s byt).2.1.inPos = s.inPos ∧
          (hal_uart_get_byte s byt).2.1.num_overflows = s.num_overflows ∧
          (hal_uart_get_byte s byt).2.1.ind = s.ind ∧
          (hal_uart_get_byte s byt).2.1.rxBuffSize = s.rxBuffSize ∧
          (hal_uart_get_byte s byt).2.1.rxBuffer = s.rxBuffer ∧
          (hal_uart_get_byte s byt).2.1.hal_uart_driver_installed = true ∧
          (hal_uart_get_byte s byt).2.1.live = s.live) := by
  by_cases hi : s.hal_uart_driver_installed = true
  · by_cases hf : s.filled = 0
    · rw [get_byte_none byt hi hf]
      simp [hf, hi]
    · have e : hal_uart_get_byte s byt =
          (HAL_NO_ERROR,
            { s with
              filled := s.filled - 1
              outPos := if (s.outPos + 1) % 256 = s.rxBuffSize then 0
                else (s.outPos + 1) % 256 },
            s.rxRead s.outPos) := by
        simp [hal_uart_get_byte, hi, hf]
      rw [e]
      refine ⟨by simp [hi], by simp [hf], fun h => ?_,
        fun _ _ => ⟨rfl, rfl, ?_, rfl, ?_, rfl, rfl, rfl, rfl, rfl, hi, rfl⟩⟩
      · rcases h with h | h
        · rw [hi] at h
          exact absurd h (by decide)
        · exact absurd h hf
      · intro buf h hb
        show s.rxRead s.outPos = buf[s.outPos]
        simp [State.rxRead, hb, List.getD_eq_getElem?_getD, List.getElem?_eq_getElem h]
      · intro ho hc
        show (if (s.outPos + 1) % 256 = s.rxBuffSize then 0 else (s.outPos + 1) % 256) =
          (s.outPos + 1) % s.rxBuffSize
        have e1 : (s.outPos + 1) % 256 = s.outPos + 1 := Nat.mod_eq_of_lt (by omega)
        rw [e1, mod_wrap (by omega)]
        split_ifs <;> omega
  · have hi2 : s.hal_uart_driver_installed = false := by
      simpa using hi
    have e : hal_uart_get_byte s byt = (HAL_FAIL, s, byt) := by
      simp [hal_uart_get_byte, hi2]
    rw [e]
    simp [hi2]

theorem C4_get_byte_postcondition_witness :
    RingInv (feed [7, 8] (echoInstalled 2)) ∧
      hal_uart_get_byte (feed [7, 8] (echoInstalled 2)) 0 =
        (HAL_NO_ERROR, { feed [7, 8] (echoInstalled 2) with filled := 1, outPos := 1 }, 7) ∧
      (hal_uart_get_byte (hal_uart_get_byte (feed [7, 8] (echoInstalled 2)) 0).2.1 0).2.1.outPos =
        (1 + 1) % 2 :=
  ⟨by decide, by decide,
    ((C4_get_byte_postcondition (hal_uart_get_byte (feed [7, 8] (echoInstalled 2)) 0).2.1
      0).2.2.2 (by decide) (by decide)).2.2.2.2.1 (by decide) (by decide)⟩

/-- C5. Exact read is all-or-nothing: on an installed driver, a call of
`hal_uart_get_bytes_num` with `length > filled` returns `HAL_NOT_AVAIL` and leaves
the whole driver state (so `filled`, `inPos`, `outPos`) and the destination array
unchanged; on a driver that is not installed it returns `HAL_FAIL` and changes
nothing. -/
theorem C5_exact_read_all_or_nothing (s : State) (str : List Byte) (length : Nat) :
    (s.hal_uart_driver_installed = true → length > s.filled →
        hal_uart_get_bytes_num s str length = (HAL_NOT_AVAIL, s, str)) ∧
      (s.hal_uart_driver_installed = false →
        hal_uart_get_bytes_num s str length = (HAL_FAIL, s, str)) := by
  refine ⟨fun hi hl => get_bytes_num_none str length hi hl, fun hi => ?_⟩
  simp [hal_uart_get_bytes_num, hi]

theorem C5_exact_read_all_or_nothing_witness :
    hal_uart_get_bytes_num (feed [7, 8] (echoInstalled 50)) [0, 0, 0] 3 =
        (HAL_NOT_AVAIL, feed [7, 8] (echoInstalled 50), [0, 0, 0]) ∧
      hal_uart_get_bytes_num State.boot [0, 0, 0] 3 = (HAL_FAIL, State.boot, [0, 0, 0]) :=
  ⟨(C5_exact_read_all_or_nothing (feed [7, 8] (echoInstalled 50)) [0, 0, 0] 3).1
      (by decide) (by decide),
    (C5_exact_read_all_or_nothing State.boot [0, 0, 0] 3).2 (by decide)⟩

/-- C6. Delimiter scan resumability.  A caller polls `hal_uart_get_bytes_until`
with `*len = len` on every call and delimiter `d`, from an installed state with
scan cursor 0, while bytes arrive in any batches; the bytes that arrive in the
ring over the whole loop are the line `w`, which holds no `d` and is shorter
than `len`, followed by `d`.  Then for every call of the loop (the events `pre`
come before it, `c` is the configuration it starts from): on an empty ring it
returns `HAL_NOT_AVAIL` and changes nothing; when the head of the ring is a byte
`x` of `w` it returns `HAL_NOT_AVAIL`, removes `x`, stores it at the next
position `ind` of the caller's array, which then starts with the first `ind + 1`
bytes of `w`, and leaves `*len`; when the head is `d` it returns
`HAL_NO_ERROR` with `*len = |w|`, the array starting with `w` (the delimiter is
not copied), the cursor reset to 0 and the ring empty. -/
theorem C6_scan_resumable (d : Byte) (w : List Byte) (len : Nat) (c0 c : ScanCfg)
    (pre post : List ScanEvent)
    (hw : d ∉ w) (hL : w.length < len) (hL32 : len < 4294967296)
    (hstr : len ≤ c0.str.length) (hinv : RingInv c0.st) (hind : c0.st.ind = 0)
    (harr0 : c0.arrived = ringContents c0.st)
    (harr : (scanRun len d (pre ++ ScanEvent.poll :: post) c0).arrived = w ++ [d])
    (hc : scanRun len d pre c0 = c) :
    (ringContents c.st = [] →
        hal_uart_get_bytes_until c.st c.str len d = (HAL_NOT_AVAIL, c.st, c.str, len)) ∧
      (∀ (x : Byte) (xs : List Byte), ringContents c.st = x :: xs → x ≠ d →
        c.st.ind < w.length ∧ w[c.st.ind]? = some x ∧
          (hal_uart_get_bytes_until c.st c.str len d).1 = HAL_NOT_AVAIL ∧
          (hal_uart_get_bytes_until c.st c.str len d).2.1.ind = c.st.ind + 1 ∧
          (hal_uart_get_bytes_until c.st c.str len d).2.2.1 = c.str.set c.st.ind x ∧
          (hal_uart_get_bytes_until c.st c.str len d).2.2.1.take (c.st.ind + 1) =
            w.take (c.st.ind + 1) ∧
          (hal_uart_get_bytes_until c.st c.str len d).2.2.2 = len ∧
          ringContents (hal_uart_get_bytes_until c.st c.str len d).2.1 = xs) ∧
      (∀ xs : List Byte, ringContents c.st = d :: xs →
        (hal_uart_get_bytes_until c.st c.str len d).1 = HAL_NO_ERROR ∧
          (hal_uart_get_bytes_until c.st c.str len d).2.2.2 = w.length ∧
          (hal_uart_get_bytes_until c.st c.str len d).2.2.1.take w.length = w ∧
          (hal_uart_get_bytes_until c.st c.str len d).2.1.ind = 0 ∧
          ringContents (hal_uart_get_bytes_until c.st c.str len d).2.1 = []) := by
  have h0 : ScanInv w d len c0 := by
    refine ⟨hinv, hstr, Or.inl ⟨?_, ?_, ?_⟩⟩
    · rw [hind]; exact Nat.zero_le _
    · rw [hind]; rfl
    · rw [hind, harr0]; rfl
  rw [scanRun_append] at harr
  rw [hc] at harr
  obtain ⟨t, ht⟩ := arrived_grows len d (ScanEvent.poll :: post) c
  have hp : ∃ t, c.arrived ++ t = w ++ [d] := ⟨t, by rw [← ht]; exact harr⟩
  have hI : ScanInv w d len c := by
    rw [← hc]
    exact scanRun_ScanInv w d len pre c0 hw hL hL32 h0 (by rw [hc]; exact hp)
  exact (poll_ScanInv w d len c hw hL hL32 hI hp).2

theorem C6_scan_resumable_witness :
    RingInv (echoInstalled 3) ∧
      (scanRun 10 10
        [.recv 97, .recv 98, .poll, .poll, .poll, .recv 99, .recv 10, .poll, .poll]
        ⟨echoInstalled 3, List.replicate 11 0, []⟩).arrived = [97, 98, 99, 10] ∧
      (hal_uart_get_bytes_until
        (scanRun 10 10 [.recv 97, .recv 98, .poll, .poll, .poll, .recv 99, .recv 10, .poll]
          ⟨echoInstalled 3, List.replicate 11 0, []⟩).st
        (scanRun 10 10 [.recv 97, .recv 98, .poll, .poll, .poll, .recv 99, .recv 10, .poll]
          ⟨echoInstalled 3, List.replicate 11 0, []⟩).str 10 10).1 = HAL_NO_ERROR ∧
      (hal_uart_get_bytes_until
        (scanRun 10 10 [.recv 97, .recv 98, .poll, .poll, .poll, .recv 99, .recv 10, .poll]
          ⟨echoInstalled 3, List.replicate 11 0, []⟩).st
        (scanRun 10 10 [.recv 97, .recv 98, .poll, .poll, .poll, .recv 99, .recv 10, .poll]
          ⟨echoInstalled 3, List.replicate 11 0, []⟩).str 10 10).2.2.2 = 3 ∧
      ((hal_uart_get_bytes_until
        (scanRun 10 10 [.recv 97, .recv 98, .poll, .poll, .poll, .recv 99, .recv 10, .poll]
          ⟨echoInstalled 3, List.replicate 11 0, []⟩).st
        (scanRun 10 10 [.recv 97, .recv 98, .poll, .poll, .poll, .recv 99, .recv 10, .poll]
          ⟨echoInstalled 3, List.replicate 11 0, []⟩).str 10 10).2.2.1.take 3 = [97, 98, 99]) :=
  have h := (C6_scan_resumable 10 [97, 98, 99] 10 ⟨echoInstalled 3, List.replicate 11 0, []⟩
    (scanRun 10 10 [.recv 97, .recv 98, .poll, .poll, .poll, .recv 99, .recv 10, .poll]
      ⟨echoInstalled 3, List.replicate 11 0, []⟩)
    [.recv 97, .recv 98, .poll, .poll, .poll, .recv 99, .recv 10, .poll] [.poll]
    (by decide) (by decide) (by decide) (by decide) (by decide) (by decide) (by decide)
    (by decide) rfl).2.2 [] (by decide)
  ⟨by decide, by decide, h.1, h.2.1, h.2.2.1⟩

/-- C7 (amended). Capacity-bound scan termination.  A caller polls
`hal_uart_get_bytes_until` with `*len = len`, `len ≥ 1`, and delimiter `d`, from
an installed state with empty ring and scan cursor 0; exactly the `len` bytes of
`w`, none of them `d`, have arrived in the ring and the caller's array has been
filled (the cursor is `len`).  Then the array starts with `w` and the ring is
empty; a call made while nothing further has arrived returns `HAL_NOT_AVAIL`
and changes nothing; and the first call made after any further byte `b` has
arrived returns `HAL_NO_ERROR` with `*len = len`, the array unchanged and the
cursor reset to 0, leaving `b` in the ring. -/
theorem C7_scan_full_capacity (d : Byte) (w : List Byte) (len : Nat) (c0 c : ScanCfg)
    (pre : List ScanEvent)
    (hL1 : 1 ≤ len) (hwl : w.length = len) (hw : d ∉ w) (hL32 : len < 4294967296)
    (hstr : len ≤ c0.str.length) (hinv : RingInv c0.st) (hemp : ringContents c0.st = [])
    (hind : c0.st.ind = 0) (harr0 : c0.arrived = [])
    (hc : scanRun len d pre c0 = c) (harr : c.arrived = w) (hfull : c.st.ind = len) :
    c.str.take len = w ∧ ringContents c.st = [] ∧
      hal_uart_get_bytes_until c.st c.str len d = (HAL_NOT_AVAIL, c.st, c.str, len) ∧
      ∀ b : Byte,
        hal_uart_get_bytes_until (ISR_USART_RX b c.st) c.str len d =
            (HAL_NO_ERROR, { ISR_USART_RX b c.st with ind := 0 }, c.str, len) ∧
          ringContents (hal_uart_get_bytes_until (ISR_USART_RX b c.st) c.str len d).2.1 =
            [b] := by
  have h0 : ScanInv w d len c0 := by
    refine ⟨hinv, hstr, Or.inl ⟨?_, ?_, ?_⟩⟩
    · rw [hind]; exact Nat.zero_le _
    · rw [hind]; rfl
    · rw [hind, harr0, hemp]; rfl
  have hI : ScanInv w d len c := by
    rw [← hc]
    exact scanRun_within w d len pre c0 hw (by omega) hL32 h0 ⟨[], by rw [hc, harr]; simp⟩
  have hcap : 0 < c.st.rxBuffSize := by
    rw [← hc, scanRun_rxBuffSize]
    apply arrived_capacity len d pre c0
    rw [hc, harr, harr0]
    intro he
    rw [he] at hwl
    simp at hwl
    omega
  obtain ⟨hcinv, hcstr, hph⟩ := hI
  have hA : c.str.take len = w ∧ ringContents c.st = [] := by
    rcases hph with ⟨p1, p2, p3⟩ | ⟨p1, p2, p3, p4⟩
    · rw [hfull, ← hwl, List.take_length] at p2 p3
      rw [harr] at p3
      refine ⟨by rw [← hwl]; exact p2, ?_⟩
      have := congrArg List.length p3
      simp at this
      exact this
    · rw [harr] at p4
      have := congrArg List.length p4
      simp at this
  obtain ⟨hs, hr⟩ := hA
  have hf : c.st.filled = 0 := by rw [← ringContents_length, hr]; rfl
  refine ⟨hs, hr, until_empty c.str len d hcinv.1 hf, fun b => ?_⟩
  have hroom : c.st.filled < c.st.rxBuffSize := by omega
  have e := ISR_room b hcinv hroom
  have hi2 := ISR_room_inv b hcinv hroom
  have hq2 := ISR_room_contents b hcinv hroom
  have hf2 : (ISR_USART_RX b c.st).filled ≠ 0 := by
    rw [e]
    show c.st.filled + 1 ≠ 0
    omega
  have hind2 : (ISR_USART_RX b c.st).ind = len := by rw [e]; exact hfull
  have hu := until_full c.str len d hi2.1 hf2 (by omega)
  rw [hind2] at hu
  rw [hu]
  refine ⟨rfl, ?_⟩
  show ringContents (ISR_USART_RX b c.st) = [b]
  rw [hq2, hr]
  rfl

theorem C7_scan_full_capacity_witness :
    fullScanExample.arrived = [97, 98, 99] ∧ fullScanExample.st.ind = 3 ∧
      fullScanExample.str = [97, 98, 99] ∧
      hal_uart_get_bytes_until (ISR_USART_RX 100 fullScanExample.st) fullScanExample.str 3 10 =
        (HAL_NO_ERROR, { ISR_USART_RX 100 fullScanExample.st with ind := 0 },
          fullScanExample.str, 3) :=
  ⟨by decide, by decide, by decide,
    ((C7_scan_full_capacity 10 [97, 98, 99] 3 ⟨echoInstalled 50, [0, 0, 0], []⟩ fullScanExample
      [.recv 97, .recv 98, .recv 99, .poll, .poll, .poll]
      (by decide) (by decide) (by decide) (by decide) (by decide) (by decide) (by decide)
      (by decide) (by decide) rfl (by decide) (by decide)).2.2.2 100).1⟩

/-- C7 as stated fails: with an array of 3 bytes and delimiter `'\n'`, after the
three bytes `"abc"` have arrived and have been copied into the array by three
calls (nothing further arrives), the next call returns `HAL_NOT_AVAIL`, not
`HAL_NO_ERROR`, and leaves the driver and the array as they were, so every later
call does the same. -/
theorem C7_poll_on_filled_array_not_avail :
    fullScanExample.str = [97, 98, 99] ∧ fullScanExample.st.ind = 3 ∧
      ringContents fullScanExample.st = [] ∧
      hal_uart_get_bytes_until fullScanExample.st fullScanExample.str 3 10 =
        (HAL_NOT_AVAIL, fullScanExample.st, fullScanExample.str, 3) ∧
      ScanEvent.poll.step 3 10 fullScanExample = fullScanExample := by
  decide

/-- C8 (amended). Install status and atomicity, for every configuration and every
prior driver state.  With `_buffSize > MAX_HAL_UART_BUFF_SIZE` the call returns
`HAL_INV_PARAMS` without allocating.  Otherwise, when the allocation fails, it
returns `HAL_FAIL`.  Otherwise, when the parity is none of `NO_PARITY`,
`EVEN_PARITY`, `ODD_PARITY`, it returns `HAL_INV_PARAMS` having freed the buffer
it just allocated.  Otherwise, when the baud rate is a nonzero `uint16_t`, it
returns `HAL_NO_ERROR`.  Whenever the call returns, the driver is marked
installed after it if and only if `HAL_NO_ERROR` was returned. -/
theorem C8_install_status (F_CPU : Nat) (calloc_ok : Bool) (config : hal_uart_config)
    (s : State) :
    (config._buffSize > MAX_HAL_UART_BUFF_SIZE →
        ∃ s1, hal_uart_driver_install F_CPU calloc_ok config s = some (HAL_INV_PARAMS, s1) ∧
          s1.live = s.live ∧ s1.rxBuffer = s.rxBuffer) ∧
      (config._buffSize ≤ MAX_HAL_UART_BUFF_SIZE → calloc_ok = false →
        ∃ s1, hal_uart_driver_install F_CPU calloc_ok config s = some (HAL_FAIL, s1) ∧
          s1.live = s.live ∧ s1.rxBuffer = none) ∧
      (config._buffSize ≤ MAX_HAL_UART_BUFF_SIZE → calloc_ok = true →
        ¬ (config._parity = NO_PARITY ∨ config._parity = EVEN_PARITY ∨
          config._parity = ODD_PARITY) →
        ∃ s1, hal_uart_driver_install F_CPU calloc_ok config s = some (HAL_INV_PARAMS, s1) ∧
          s1.live = s.live ∧ s1.rxBuffer = none) ∧
      (config._buffSize ≤ MAX_HAL_UART_BUFF_SIZE → calloc_ok = true →
        (config._parity = NO_PARITY ∨ config._parity = EVEN_PARITY ∨
          config._parity = ODD_PARITY) →
        config._baud ≠ 0 → config._baud < 65536 →
        ∃ s1, hal_uart_driver_install F_CPU calloc_ok config s = some (HAL_NO_ERROR, s1) ∧
          s1.live = s.live + 1 ∧
          s1.rxBuffer = some (List.replicate config._buffSize 0)) ∧
      (∀ (e : hal_error) (s1 : State),
        hal_uart_driver_install F_CPU calloc_ok config s = some (e, s1) →
        (s1.hal_uart_driver_installed = true ↔ e = HAL_NO_ERROR)) := by
  refine ⟨fun h => ?_, fun h hc => ?_, fun h hc hp => ?_, fun h hc hp hb hb16 => ?_,
    fun e s1 h => install_installed_iff h⟩
  · exact ⟨_, install_too_large F_CPU calloc_ok config s h, rfl, rfl⟩
  · subst hc
    exact ⟨_, install_no_memory F_CPU config s h, rfl, rfl⟩
  · subst hc
    refine ⟨_, install_bad_parity F_CPU config s h hp, ?_, rfl⟩
    show s.live + 1 - 1 = s.live
    omega
  · subst hc
    obtain ⟨s1, h1⟩ := install_succeeds F_CPU config s h hp (baud_divisor_ne_zero hb hb16)
    obtain ⟨-, -, -, k4, -, -, -, -, -, -, k11⟩ := install_ok h1
    exact ⟨s1, h1, k11, k4⟩

theorem C8_install_status_witness :
    hal_uart_driver_install 16000000 true (echoConfig 50) State.boot =
        some (HAL_NO_ERROR, echoInstalled 50) ∧
      (∃ s1, hal_uart_driver_install 16000000 true (echoConfig 50) State.boot =
          some (HAL_NO_ERROR, s1) ∧ s1.live = State.boot.live + 1 ∧
          s1.rxBuffer = some (List.replicate (echoConfig 50)._buffSize 0)) ∧
      (∃ s1, hal_uart_driver_install 16000000 true
          { _baud := 9600, _parity := 80, _stopBits := 1, _buffSize := 50 } State.boot =
          some (HAL_INV_PARAMS, s1) ∧ s1.live = State.boot.live ∧ s1.rxBuffer = none) :=
  ⟨by decide,
    (C8_install_status 16000000 true (echoConfig 50) State.boot).2.2.2.1
      (by decide) rfl (by decide) (by decide) (by decide),
    (C8_install_status 16000000 true
      { _baud := 9600, _parity := 80, _stopBits := 1, _buffSize := 50 } State.boot).2.2.1
      (by decide) rfl (by decide)⟩

/-- C8 as stated fails for a baud rate of 0: with capacity 50, a successful
allocation and `NO_PARITY`, the call evaluates `F_CPU / (0 * 16)` when it
programs the baud registers and returns no status. -/
theorem C8_zero_baud_no_status :
    (50 : Nat) ≤ MAX_HAL_UART_BUFF_SIZE ∧
      hal_uart_driver_install 16000000 true
        { _baud := 0, _parity := NO_PARITY, _stopBits := 1, _buffSize := 50 } State.boot =
        none ∧
      hal_uart_driver_install 16000000 true
        { _baud := 0, _parity := NO_PARITY, _stopBits := 1, _buffSize := 50 } State.boot ≠
        some (HAL_NO_ERROR, echoInstalled 50) := by
  decide

/-- C9. Lifecycle freshness: for every prior state `s0`, every two valid
configurations (of different capacities or not) and every receive and read
activity,
`install`, the activity, `uninstall`, `install` again (both allocations
succeeding) both return `HAL_NO_ERROR` and end in a state that is installed,
has the second capacity, and has `inPos = outPos = filled = 0` and overflow
counter 0; there `hal_uart_get_byte` returns `HAL_NOT_AVAIL`, and the ring
accepts exactly `config2._buffSize` bytes before overflowing: after that many
bytes it holds them all with the overflow counter still 0, and one more byte is
dropped and counted. -/
theorem C9_lifecycle_fresh (F_CPU : Nat) (config1 config2 : hal_uart_config) (s0 : State)
    (acts : List Activity) (hv1 : ValidConfig config1) (hv2 : ValidConfig config2) :
    ∃ s1 s3,
      hal_uart_driver_install F_CPU true config1 s0 = some (HAL_NO_ERROR, s1) ∧
      hal_uart_driver_install F_CPU true config2
          (hal_uart_driver_uninstall (runActivity acts s1)).2 = some (HAL_NO_ERROR, s3) ∧
      s3.hal_uart_driver_installed = true ∧ s3.rxBuffSize = config2._buffSize ∧
      s3.inPos = 0 ∧ s3.outPos = 0 ∧ s3.filled = 0 ∧ s3.num_overflows = 0 ∧
      (∀ byt : Byte, hal_uart_get_byte s3 byt = (HAL_NOT_AVAIL, s3, byt)) ∧
      (∀ bs : List Byte, bs.length = config2._buffSize →
        (feed bs s3).filled = config2._buffSize ∧ (feed bs s3).num_overflows = 0 ∧
          ringContents (feed bs s3) = bs ∧
          ∀ b : Byte, (ISR_USART_RX b (feed bs s3)).num_overflows = 1 ∧
            ringContents (ISR_USART_RX b (feed bs s3)) = bs) := by
  obtain ⟨a1, a2, a3, a4⟩ := hv1
  obtain ⟨b1, b2, b3, b4⟩ := hv2
  obtain ⟨s1, h1⟩ := install_succeeds F_CPU config1 s0 a1 a2 (baud_divisor_ne_zero a3 a4)
  obtain ⟨s3, h3⟩ := install_succeeds F_CPU config2
    (hal_uart_driver_uninstall (runActivity acts s1)).2 b1 b2 (baud_divisor_ne_zero b3 b4)
  obtain ⟨-, -, k3, -, k5, k6, k7, k8, k9, -, -⟩ := install_ok h3
  obtain ⟨hinv, hemp⟩ := install_ok_inv h3
  refine ⟨s1, s3, h1, h3, k3, k5, k6, k7, k8, k9, fun byt => get_byte_none byt k3 k8,
    fun bs hbs => ?_⟩
  obtain ⟨f1, f2, -, f4, f5⟩ := feed_inv bs hinv (by rw [k9]; decide)
  rw [hemp, k5, k8, Nat.sub_zero, List.nil_append, List.take_of_length_le (by omega)] at f4
  rw [k9, k5, k8, Nat.sub_zero, hbs, Nat.sub_self] at f5
  have hfill : (feed bs s3).filled = config2._buffSize := by
    rw [← ringContents_length, f4, hbs]
  refine ⟨hfill, f5, f4, fun b => ?_⟩
  have hfull : ¬ (feed bs s3).filled < (feed bs s3).rxBuffSize := by
    rw [hfill, f2, k5]
    exact Nat.lt_irrefl _
  rw [ISR_full b f1.1 hfull]
  refine ⟨?_, f4⟩
  show ((feed bs s3).num_overflows + 1) % 4294967296 = 1
  rw [f5]

theorem C9_lifecycle_fresh_witness :
    ValidConfig (echoConfig 50) ∧ ValidConfig (echoConfig 3) ∧
      ∃ s1 s3,
        hal_uart_driver_install 16000000 true (echoConfig 50) State.boot =
          some (HAL_NO_ERROR, s1) ∧
        hal_uart_driver_install 16000000 true (echoConfig 3)
            (hal_uart_driver_uninstall
              (runActivity [.isr 97, .isr 98, .get_byte 0, .get_bytes_until [0, 0] 2 10] s1)).2 =
          some (HAL_NO_ERROR, s3) ∧
        s3.hal_uart_driver_installed = true ∧ s3.rxBuffSize = 3 ∧ s3.filled = 0 ∧
        s3.num_overflows = 0 :=
  have ⟨s1, s3, h1, h3, k1, k2, _, _, k5, k6, _⟩ :=
    C9_lifecycle_fresh 16000000 (echoConfig 50) (echoConfig 3) State.boot
      [.isr 97, .isr 98, .get_byte 0, .get_bytes_until [0, 0] 2 10]
      (by decide) (by decide)
  ⟨by decide, by decide, s1, s3, h1, h3, k1, k2, k5, k6⟩

/-- C10 (amended). Postcondition of `hal_uart_driver_uninstall`: it always returns
`HAL_NO_ERROR`; on a driver that is not installed it changes no state; on an
installed driver, for every prior state, it leaves the driver not installed,
`rxBuffer` null with its block released, and the capacity, `inPos`, `outPos`,
`filled` and the overflow counter equal to 0.  The delimiter-scan cursor `ind` is
not reset: it keeps the value it had. -/
theorem C10_uninstall_postcondition (s : State) :
    (hal_uart_driver_uninstall s).1 = HAL_NO_ERROR ∧
      (s.hal_uart_driver_installed = false → (hal_uart_driver_uninstall s).2 = s) ∧
      (s.hal_uart_driver_installed = true →
        (hal_uart_driver_uninstall s).2.hal_uart_driver_installed = false ∧
          (hal_uart_driver_uninstall s).2.rxBuffer = none ∧
          (∀ buf, s.rxBuffer = some buf → (hal_uart_driver_uninstall s).2.live = s.live - 1) ∧
          (hal_uart_driver_uninstall s).2.rxBuffSize = 0 ∧
          (hal_uart_driver_uninstall s).2.inPos = 0 ∧
          (hal_uart_driver_uninstall s).2.outPos = 0 ∧
          (hal_uart_driver_uninstall s).2.filled = 0 ∧
          (hal_uart_driver_uninstall s).2.num_overflows = 0 ∧
          (hal_uart_driver_uninstall s).2.ind = s.ind) := by
  by_cases hi : s.hal_uart_driver_installed = true
  · have e : hal_uart_driver_uninstall s =
        (HAL_NO_ERROR,
          { s with
            UCSR0B := s.UCSR0B &&&
              (255 ^^^ ((1 <<< RXEN0) ||| (1 <<< TXEN0) ||| (1 <<< RXCIE0)))
            live := if s.rxBuffer.isSome then s.live - 1 else s.live
            rxBuffer := none
            hal_uart_driver_installed := false, rxBuffSize := 0, inPos := 0, outPos := 0,
            filled := 0, num_overflows := 0 }) := by
      unfold hal_uart_driver_uninstall
      rw [if_pos hi]
    rw [e]
    refine ⟨rfl, fun h => ?_, fun _ => ⟨rfl, rfl, fun buf hb => ?_, rfl, rfl, rfl, rfl, rfl, rfl⟩⟩
    · rw [hi] at h
      exact absurd h (by decide)
    · show (if s.rxBuffer.isSome then s.live - 1 else s.live) = s.live - 1
      rw [hb]
      rfl
  · have e : hal_uart_driver_uninstall s = (HAL_NO_ERROR, s) := by
      unfold hal_uart_driver_uninstall
      rw [if_neg hi]
    rw [e]
    exact ⟨rfl, fun _ => rfl, fun h => absurd h hi⟩

theorem C10_uninstall_postcondition_witness :
    midScanExample.st.hal_uart_driver_installed = true ∧
      (hal_uart_driver_uninstall midScanExample.st).2.hal_uart_driver_installed = false ∧
      (hal_uart_driver_uninstall midScanExample.st).2.rxBuffer = none ∧
      (hal_uart_driver_uninstall midScanExample.st).2.live = 0 ∧
      (hal_uart_driver_uninstall State.boot).2 = State.boot :=
  have h := (C10_uninstall_postcondition midScanExample.st).2.2 (by decide)
  ⟨by decide, h.1, h.2.1, (h.2.2.1 (97 :: 98 :: List.replicate 48 0) (by decide)).trans (by decide),
    (C10_uninstall_postcondition State.boot).2.1 (by decide)⟩

/-- C10 as stated fails for the scan cursor: uninstalling an installed driver in
the middle of a delimiter scan (two bytes copied, cursor 2) leaves the cursor at
2, not at its initial value 0. -/
theorem C10_uninstall_keeps_scan_cursor :
    midScanExample.st.hal_uart_driver_installed = true ∧ midScanExample.st.ind = 2 ∧
      (hal_uart_driver_uninstall midScanExample.st).1 = HAL_NO_ERROR ∧
      (hal_uart_driver_uninstall midScanExample.st).2.ind = 2 ∧
      (hal_uart_driver_uninstall midScanExample.st).2.ind ≠ 0 := by
  decide

/-- C11 (amended). Re-installation and the delimiter scan: a successful
`hal_uart_driver_install` does not write the scan cursor, so the state right after
it has the cursor `ind` it had before; the cursor is 0 after the call when it was
0 before.  The ring is empty after the call, and when a byte `b` other than the
delimiter then arrives (the capacity being nonzero) the first call of
`hal_uart_get_bytes_until` with the cursor below `*len` stores `b` at index `ind`
of the caller's array: at index 0 when the cursor was 0, at index `k` when a scan
was in progress with cursor `k`. -/
theorem C11_install_keeps_scan_cursor (F_CPU : Nat) (calloc_ok : Bool)
    (config : hal_uart_config) (s s1 : State)
    (hinst : hal_uart_driver_install F_CPU calloc_ok config s = some (HAL_NO_ERROR, s1)) :
    s1.ind = s.ind ∧ (s.ind = 0 → s1.ind = 0) ∧ ringContents s1 = [] ∧
      ∀ (b d : Byte) (str : List Byte) (len : Nat),
        0 < config._buffSize → b ≠ d → s.ind < len →
        (hal_uart_get_bytes_until (ISR_USART_RX b s1) str len d).1 = HAL_NOT_AVAIL ∧
          (hal_uart_get_bytes_until (ISR_USART_RX b s1) str len d).2.2.1 =
            str.set s.ind b := by
  obtain ⟨-, -, -, -, h5, -, -, h8, -, h10, -⟩ := install_ok hinst
  obtain ⟨hinv, hemp⟩ := install_ok_inv hinst
  refine ⟨h10, fun h0 => by rw [h10, h0], hemp, fun b d str len hc hb hl => ?_⟩
  have hroom : s1.filled < s1.rxBuffSize := by omega
  have hq : ringContents (ISR_USART_RX b s1) = [b] := by
    rw [ISR_room_contents b hinv hroom, hemp]
    rfl
  have hind : (ISR_USART_RX b s1).ind = s.ind := by
    rw [ISR_room b hinv hroom]
    exact h10
  obtain ⟨-, -, -, u4, -⟩ :=
    until_pop str len d b [] (ISR_room_inv b hinv hroom) hq (by rw [hind]; exact hl)
  obtain ⟨v1, -, v3, -⟩ := u4 hb
  rw [hind] at v3
  exact ⟨v1, v3⟩

theorem C11_install_keeps_scan_cursor_witness :
    hal_uart_driver_install 16000000 true (echoConfig 50) State.boot =
        some (HAL_NO_ERROR, echoInstalled 50) ∧
      (echoInstalled 50).ind = 0 ∧
      (hal_uart_get_bytes_until (ISR_USART_RX 97 (echoInstalled 50)) [0, 0, 0] 3 10).2.2.1 =
        [97, 0, 0] :=
  have h := C11_install_keeps_scan_cursor 16000000 true (echoConfig 50) State.boot
    (echoInstalled 50) (by decide)
  ⟨by decide, h.2.1 (by decide),
    ((h.2.2.2 97 10 [0, 0, 0] 3 (by decide) (by decide) (by decide)).2).trans (by decide)⟩

/-- C11 as stated fails: installing again on a driver in the middle of a
delimiter scan (cursor 2) returns `HAL_NO_ERROR` and leaves the cursor at 2, and
the first byte of the next scan is stored at index 2 of the caller's array, not
at index 0. -/
theorem C11_reinstall_cursor_stays :
    midScanExample.st.ind = 2 ∧
      (hal_uart_driver_install 16000000 true (echoConfig 50) midScanExample.st).map
          (fun r => (r.1, r.2.ind)) = some (HAL_NO_ERROR, 2) ∧
      (hal_uart_driver_install 16000000 true (echoConfig 50) midScanExample.st).map
          (fun r => (hal_uart_get_bytes_until (ISR_USART_RX 120 r.2) [0, 0, 0, 0] 4 10).2.2.1) =
        some [0, 0, 120, 0] := by
  decide

/-- C12 fails on the code.  Two successful calls of `hal_uart_driver_install` at
program start, with no `hal_uart_driver_uninstall` between them, leave the driver
installed with two live buffers: the second call overwrites `rxBuffer` without
freeing the first block.  And a successful install followed by an install that
is rejected for its capacity, then by `hal_uart_driver_uninstall`, leaves the
driver not installed with one live buffer. -/
theorem C12_install_on_installed_leaks :
    (runLifecycle 16000000
        [.install true (echoConfig 50), .install true (echoConfig 50)] State.boot).map
        (fun s => (s.hal_uart_driver_installed, s.live)) = some (true, 2) ∧
      (runLifecycle 16000000
        [.install true (echoConfig 50), .install true (echoConfig 201), .uninstall]
        State.boot).map
        (fun s => (s.hal_uart_driver_installed, s.live)) = some (false, 1) := by
  decide

/-- C13. Flush frame and its effect on a scan: in every state
`hal_uart_flush_buffer` sets `inPos`, `outPos` and `filled` to zero and leaves the
overflow counter, the scan cursor, the capacity, the installed flag and the
buffer unchanged (it takes no caller array, so the bytes already copied into the
caller's scan buffer are untouched); and on an installed driver, whatever the
cursor, the next `hal_uart_get_bytes_until` call after the flush returns
`HAL_NOT_AVAIL` with the driver state, so the cursor, the caller's array and
`*len` unmodified. -/
theorem C13_flush_frame (s : State) :
    (hal_uart_flush_buffer s).inPos = 0 ∧ (hal_uart_flush_buffer s).outPos = 0 ∧
      (hal_uart_flush_buffer s).filled = 0 ∧
      (hal_uart_flush_buffer s).num_overflows = s.num_overflows ∧
      (hal_uart_flush_buffer s).ind = s.ind ∧
      (hal_uart_flush_buffer s).rxBuffSize = s.rxBuffSize ∧
      (hal_uart_flush_buffer s).hal_uart_driver_installed = s.hal_uart_driver_installed ∧
      (hal_uart_flush_buffer s).rxBuffer = s.rxBuffer ∧
      (hal_uart_flush_buffer s).live = s.live ∧
      (s.hal_uart_driver_installed = true →
        ∀ (str : List Byte) (len : Nat) (d : Byte),
          hal_uart_get_bytes_until (hal_uart_flush_buffer s) str len d =
              (HAL_NOT_AVAIL, hal_uart_flush_buffer s, str, len) ∧
            (hal_uart_get_bytes_until (hal_uart_flush_buffer s) str len d).2.1.ind =
              s.ind) := by
  refine ⟨rfl, rfl, rfl, rfl, rfl, rfl, rfl, rfl, rfl, fun hi str len d => ?_⟩
  have e := @until_empty (hal_uart_flush_buffer s) str len d hi rfl
  rw [e]
  exact ⟨rfl, rfl⟩

theorem C13_flush_frame_witness :
    midScanExample.st.hal_uart_driver_installed = true ∧ midScanExample.st.ind = 2 ∧
      hal_uart_get_bytes_until (hal_uart_flush_buffer (feed [99, 100] midScanExample.st))
          midScanExample.str 10 10 =
        (HAL_NOT_AVAIL, hal_uart_flush_buffer (feed [99, 100] midScanExample.st),
          midScanExample.str, 10) ∧
      (hal_uart_flush_buffer (feed [99, 100] midScanExample.st)).ind = 2 :=
  have h := C13_flush_frame (feed [99, 100] midScanExample.st)
  ⟨by decide, by decide, (h.2.2.2.2.2.2.2.2.2 (by decide) midScanExample.str 10 10).1,
    h.2.2.2.2.1.trans (by decide)⟩

/-- C14 (amended). Stop-bit policy: the status `hal_uart_driver_install` returns
does not depend on `config._stopBits`; for every stop-bit value, a configuration
with capacity at most 200, a recognised parity, a baud rate that is a nonzero
`uint16_t` and a successful allocation returns `HAL_NO_ERROR`; and the `USBS0`
bit of the value written to the mode register `UCSR0C` is set if and only if
`_stopBits` is 2, every other value selecting one stop bit. -/
theorem C14_stop_bit_policy (F_CPU : Nat) (calloc_ok : Bool) (config : hal_uart_config)
    (s : State) :
    (∀ sb : Nat,
        (hal_uart_driver_install F_CPU calloc_ok { config with _stopBits := sb } s).map
            (fun r => r.1) =
          (hal_uart_driver_install F_CPU calloc_ok config s).map (fun r => r.1)) ∧
      (config._buffSize ≤ MAX_HAL_UART_BUFF_SIZE → calloc_ok = true →
        (config._parity = NO_PARITY ∨ config._parity = EVEN_PARITY ∨
          config._parity = ODD_PARITY) →
        config._baud ≠ 0 → config._baud < 65536 →
        ∃ s1, hal_uart_driver_install F_CPU calloc_ok config s = some (HAL_NO_ERROR, s1) ∧
          (s1.UCSR0C &&& (1 <<< USBS0) ≠ 0 ↔ config._stopBits = 2)) := by
  refine ⟨fun sb => install_status_stopBits F_CPU calloc_ok config s sb,
    fun h hc hp hb hb16 => ?_⟩
  subst hc
  obtain ⟨s1, h1⟩ := install_succeeds F_CPU config s h hp (baud_divisor_ne_zero hb hb16)
  obtain ⟨u, p, hu, -, hC, -, -⟩ := install_ok_regs h1
  refine ⟨s1, h1, ?_⟩
  rw [hC]
  exact usbs0_iff (parity_ucsrc_values hu) config._stopBits

theorem C14_stop_bit_policy_witness :
    (∃ s1, hal_uart_driver_install 16000000 true
          { _baud := 9600, _parity := EVEN_PARITY, _stopBits := 7, _buffSize := 50 }
          State.boot = some (HAL_NO_ERROR, s1) ∧
        (s1.UCSR0C &&& (1 <<< USBS0) ≠ 0 ↔ (7 : Nat) = 2)) ∧
      (∃ s1, hal_uart_driver_install 16000000 true
          { _baud := 9600, _parity := ODD_PARITY, _stopBits := 2, _buffSize := 50 }
          State.boot = some (HAL_NO_ERROR, s1) ∧
        (s1.UCSR0C &&& (1 <<< USBS0) ≠ 0 ↔ (2 : Nat) = 2)) :=
  ⟨(C14_stop_bit_policy 16000000 true
      { _baud := 9600, _parity := EVEN_PARITY, _stopBits := 7, _buffSize := 50 }
      State.boot).2 (by decide) rfl (by decide) (by decide) (by decide),
    (C14_stop_bit_policy 16000000 true
      { _baud := 9600, _parity := ODD_PARITY, _stopBits := 2, _buffSize := 50 }
      State.boot).2 (by decide) rfl (by decide) (by decide) (by decide)⟩

/-- C14 as stated fails for a baud rate of 0: with capacity 10, `EVEN_PARITY`, a
successful allocation and a stop-bit value of 3, the call does not return
`HAL_NO_ERROR`: it divides by zero when it programs the baud registers. -/
theorem C14_zero_baud_any_stop_bits :
    (10 : Nat) ≤ MAX_HAL_UART_BUFF_SIZE ∧
      (hal_uart_driver_install 16000000 true
        { _baud := 0, _parity := EVEN_PARITY, _stopBits := 3, _buffSize := 10 }
        State.boot).map (fun r => r.1) = none ∧
      (hal_uart_driver_install 16000000 true
        { _baud := 0, _parity := EVEN_PARITY, _stopBits := 3, _buffSize := 10 }
        State.boot).map (fun r => r.1) ≠ some HAL_NO_ERROR := by
  decide

/-- C15 fails on the code for the length 0 and for the empty string.  On an
installed driver with the transmitter ready, `hal_uart_write_bytes_nl(str, 0)` and
`hal_uart_println("")` return `HAL_FAIL` and transmit nothing, not even the
`'\n'`: the loops of `hal_uart_write_bytes` and `hal_uart_print` do not run and
their status keeps its initial value `HAL_FAIL`.  With a nonzero length and with
a nonempty string the same calls return `HAL_NO_ERROR` and transmit the bytes
followed by `'\n'`. -/
theorem C15_empty_output_returns_fail :
    (echoInstalled 50).hal_uart_driver_installed = true ∧
      hal_uart_write_bytes_nl alwaysReady 1 [104, 105] 0 (echoInstalled 50) 0 =
        some (HAL_FAIL, echoInstalled 50, 0) ∧
      hal_uart_println alwaysReady 1 [0] (echoInstalled 50) 0 =
        some (HAL_FAIL, echoInstalled 50, 0) ∧
      (hal_uart_write_bytes_nl alwaysReady 1 [104, 105] 2 (echoInstalled 50) 0).map
          (fun r => (r.1, r.2.1.tx)) = some (HAL_NO_ERROR, [104, 105, 10]) ∧
      (hal_uart_println alwaysReady 1 [104, 105, 0] (echoInstalled 50) 0).map
          (fun r => (r.1, r.2.1.tx)) = some (HAL_NO_ERROR, [104, 105, 10]) := by
  decide

/-- C16 (amended). Ring bounds invariant: in every state reached from a
successful `hal_uart_driver_install` by any sequence of interrupt-handler steps and
`hal_uart_get_byte`, `hal_uart_get_bytes_num`, `hal_uart_get_bytes_until` and
`hal_uart_flush_buffer` calls, the capacity is the installed one and
`0 ≤ filled ≤ rxBuffSize`; for a capacity of at least 1 both `inPos` and `outPos`
lie in `[0, rxBuffSize)` and `inPos = (outPos + filled) mod rxBuffSize`; for the
capacity 0 `inPos`, `outPos` and `filled` are all 0. -/
theorem C16_ring_bounds (F_CPU : Nat) (calloc_ok : Bool) (config : hal_uart_config)
    (s0 s1 : State) (acts : List Activity)
    (hinst : hal_uart_driver_install F_CPU calloc_ok config s0 = some (HAL_NO_ERROR, s1)) :
    (runActivity acts s1).rxBuffSize = config._buffSize ∧
      (runActivity acts s1).filled ≤ (runActivity acts s1).rxBuffSize ∧
      (0 < (runActivity acts s1).rxBuffSize →
        (runActivity acts s1).inPos < (runActivity acts s1).rxBuffSize ∧
          (runActivity acts s1).outPos < (runActivity acts s1).rxBuffSize ∧
          (runActivity acts s1).inPos =
            ((runActivity acts s1).outPos + (runActivity acts s1).filled) %
              (runActivity acts s1).rxBuffSize) ∧
      ((runActivity acts s1).rxBuffSize = 0 →
        (runActivity acts s1).inPos = 0 ∧ (runActivity acts s1).outPos = 0 ∧
          (runActivity acts s1).filled = 0) := by
  obtain ⟨-, -, -, -, h5, -⟩ := install_ok hinst
  obtain ⟨hinv, -⟩ := install_ok_inv hinst
  obtain ⟨⟨-, -, -, r4, r5, r6⟩, rc⟩ := runActivity_inv acts hinv
  refine ⟨by rw [rc, h5], r4, fun hpos => ⟨?_, by omega, r6⟩, fun hz => ?_⟩
  · rw [r6]
    exact Nat.mod_lt _ hpos
  · rw [hz] at r4 r5 r6
    have hf : (runActivity acts s1).filled = 0 := by omega
    have ho : (runActivity acts s1).outPos = 0 := by omega
    rw [hf, ho] at r6
    exact ⟨r6, ho, hf⟩

theorem C16_ring_bounds_witness :
    hal_uart_driver_install 16000000 true (echoConfig 2) State.boot =
        some (HAL_NO_ERROR, echoInstalled 2) ∧
      (runActivity [.isr 1, .isr 2, .isr 3, .get_byte 0, .isr 4, .get_bytes_until [0] 1 10]
        (echoInstalled 2)).filled ≤ 2 ∧
      (runActivity [.isr 1, .isr 2, .isr 3, .get_byte 0, .isr 4, .get_bytes_until [0] 1 10]
        (echoInstalled 2)).inPos < 2 :=
  have h := C16_ring_bounds 16000000 true (echoConfig 2) State.boot (echoInstalled 2)
    [.isr 1, .isr 2, .isr 3, .get_byte 0, .isr 4, .get_bytes_until [0] 1 10] (by decide)
  ⟨by decide, h.2.1.trans (by decide),
    Nat.lt_of_lt_of_le (h.2.2.1 (by decide)).1 (by decide)⟩

/-- C16 as stated fails for the capacity 0, which `hal_uart_driver_install`
accepts: the state it leaves has `inPos = outPos = 0`, and 0 does not lie in the
empty range `[0, 0)`. -/
theorem C16_capacity_zero_indices :
    hal_uart_driver_install 16000000 true (echoConfig 0) State.boot =
        some (HAL_NO_ERROR, echoInstalled 0) ∧
      (echoInstalled 0).rxBuffSize = 0 ∧
      ¬ (echoInstalled 0).inPos < (echoInstalled 0).rxBuffSize ∧
      ¬ (echoInstalled 0).outPos < (echoInstalled 0).rxBuffSize := by
  decide

/-- C17. Baud prescaler: for a clock frequency `F_CPU` that fits 32 bits and a
16-bit baud value with `0 < 16 * _baud ≤ F_CPU`, a successful
`hal_uart_driver_install` writes to `UBRR0L` the low 8 bits and to `UBRR0H` bits
8..15 of `P = F_CPU / (16 * _baud) - 1` (integer division), so that
`UBRR0H * 256 + UBRR0L = P` whenever `P < 65536`. -/
theorem C17_baud_prescaler (F_CPU : Nat) (calloc_ok : Bool) (config : hal_uart_config)
    (s s1 : State)
    (hinst : hal_uart_driver_install F_CPU calloc_ok config s = some (HAL_NO_ERROR, s1))
    (hF : F_CPU < 4294967296) (hb : config._baud < 65536)
    (hpos : 0 < 16 * config._baud) (hle : 16 * config._baud ≤ F_CPU) :
    s1.UBRR0L = (F_CPU / (16 * config._baud) - 1) % 256 ∧
      s1.UBRR0H = (F_CPU / (16 * config._baud) - 1) / 256 % 256 ∧
      (F_CPU / (16 * config._baud) - 1 < 65536 →
        s1.UBRR0H * 256 + s1.UBRR0L = F_CPU / (16 * config._baud) - 1) := by
  obtain ⟨u, p, -, hp, -, hL, hH⟩ := install_ok_regs hinst
  rw [BAUD_PRESCALER_value F_CPU config hF hb hpos hle] at hp
  have hp2 : F_CPU / (16 * config._baud) - 1 = p := Option.some.inj hp
  rw [hp2]
  have hs : p >>> 8 = p / 256 := by
    rw [Nat.shiftRight_eq_div_pow]
  rw [hs] at hH
  refine ⟨hL, hH, fun hlt => ?_⟩
  rw [hL, hH]
  omega

theorem C17_baud_prescaler_witness :
    hal_uart_driver_install 16000000 true (echoConfig 50) State.boot =
        some (HAL_NO_ERROR, echoInstalled 50) ∧
      (echoInstalled 50).UBRR0L = 103 ∧ (echoInstalled 50).UBRR0H = 0 ∧
      (echoInstalled 50).UBRR0H * 256 + (echoInstalled 50).UBRR0L =
        16000000 / (16 * 9600) - 1 :=
  have h := C17_baud_prescaler 16000000 true (echoConfig 50) State.boot (echoInstalled 50)
    (by decide) (by decide) (by decide) (by decide) (by decide)
  ⟨by decide, h.1.trans (by decide), h.2.1.trans (by decide), h.2.2 (by decide)⟩

/-- C18. Delimiter scan loses no data.  On an installed driver state (ring
invariant), for every delimiter `d`, every `*len` (a `uint32_t`) and every
caller array of at least `*len` bytes, write `pending` for the first `ind` bytes
of the array and `ring` for the ring contents in FIFO order.  A call of
`hal_uart_get_bytes_until` returns `HAL_NOT_AVAIL` or `HAL_NO_ERROR`; when it
returns `HAL_NOT_AVAIL`, `pending ++ filter (≠ d) ring` is the same after the
call as before; when it returns `HAL_NO_ERROR` with output `o` (the first
returned-length bytes of the array), the cursor is 0 afterwards (nothing is
pending) and `o ++ filter (≠ d) ring` after the call equals
`pending ++ filter (≠ d) ring` before it.  A call made with the cursor not below
`*len` removes no byte from the ring, and every call leaves the ring as it was
or removes exactly its first byte. -/
theorem C18_scan_loses_no_data (s : State) (str : List Byte) (len : Nat) (d : Byte)
    (hinv : RingInv s) (hstr : len ≤ str.length) (hlen : len < 4294967296) :
    ((hal_uart_get_bytes_until s str len d).1 = HAL_NOT_AVAIL ∨
        (hal_uart_get_bytes_until s str len d).1 = HAL_NO_ERROR) ∧
      ((hal_uart_get_bytes_until s str len d).1 = HAL_NOT_AVAIL →
        (hal_uart_get_bytes_until s str len d).2.2.1.take
            (hal_uart_get_bytes_until s str len d).2.1.ind ++
            (ringContents (hal_uart_get_bytes_until s str len d).2.1).filter (fun b => b != d) =
          str.take s.ind ++ (ringContents s).filter (fun b => b != d)) ∧
      ((hal_uart_get_bytes_until s str len d).1 = HAL_NO_ERROR →
        (hal_uart_get_bytes_until s str len d).2.1.ind = 0 ∧
          (hal_uart_get_bytes_until s str len d).2.2.1.take
              (hal_uart_get_bytes_until s str len d).2.2.2 ++
              (ringContents (hal_uart_get_bytes_until s str len d).2.1).filter
                (fun b => b != d) =
            str.take s.ind ++ (ringContents s).filter (fun b => b != d)) ∧
      (¬ s.ind < len →
        ringContents (hal_uart_get_bytes_until s str len d).2.1 = ringContents s) ∧
      (ringContents (hal_uart_get_bytes_until s str len d).2.1 = ringContents s ∨
        ∃ x, ringContents s =
          x :: ringContents (hal_uart_get_bytes_until s str len d).2.1) := by
  cases hq : ringContents s with
  | nil =>
    have hf : s.filled = 0 := by rw [← ringContents_length, hq]; rfl
    rw [until_empty str len d hinv.1 hf]
    refine ⟨Or.inl rfl, fun _ => ?_, fun h => ?_, fun _ => hq, Or.inl hq⟩
    · show str.take s.ind ++ (ringContents s).filter (fun b => b != d) = _
      rw [hq]
    · exact hal_error.noConfusion h
  | cons x xs =>
    have hf : s.filled ≠ 0 := by
      rw [← ringContents_length, hq]
      simp
    by_cases hl : s.ind < len
    · obtain ⟨-, u2, -, u4, u5⟩ := until_pop str len d x xs hinv hq hl
      by_cases hd : x = d
      · obtain ⟨v1, v2, v3, v4⟩ := u5 hd
        have hfil : (x :: xs).filter (fun b => b != d) = xs.filter (fun b => b != d) := by
          rw [List.filter_cons_of_neg]
          simp [hd]
        rw [v1, v2, v3, v4, u2, hfil]
        refine ⟨Or.inr rfl, fun h => absurd h (by decide), fun _ => ⟨rfl, rfl⟩,
          fun h => absurd hl h, Or.inr ⟨x, rfl⟩⟩
      · obtain ⟨v1, v2, v3, v4⟩ := u4 hd
        have hmod : (s.ind + 1) % 4294967296 = s.ind + 1 := Nat.mod_eq_of_lt (by omega)
        have hfil : (x :: xs).filter (fun b => b != d) =
            x :: xs.filter (fun b => b != d) := by
          rw [List.filter_cons_of_pos]
          simp [hd]
        rw [v1, v2, v3, u2, hfil, hmod, (take_drop_set str s.ind x (by omega) 0).1]
        refine ⟨Or.inl rfl, fun _ => by simp, fun h => absurd h (by decide),
          fun h => absurd hl h, Or.inr ⟨x, rfl⟩⟩
    · rw [until_full str len d hinv.1 hf hl]
      refine ⟨Or.inr rfl, fun h => hal_error.noConfusion h, fun _ => ⟨rfl, ?_⟩,
        fun _ => hq, Or.inl hq⟩
      show str.take s.ind ++ (ringContents s).filter (fun b => b != d) = _
      rw [hq]

theorem C18_scan_loses_no_data_witness :
    RingInv (feed [99, 10, 100] midScanExample.st) ∧
      (hal_uart_get_bytes_until (feed [99, 10, 100] midScanExample.st)
        midScanExample.str 10 10).1 = HAL_NOT_AVAIL ∧
      (hal_uart_get_bytes_until (feed [99, 10, 100] midScanExample.st)
          midScanExample.str 10 10).2.2.1.take
          (hal_uart_get_bytes_until (feed [99, 10, 100] midScanExample.st)
            midScanExample.str 10 10).2.1.ind ++
          (ringContents (hal_uart_get_bytes_until (feed [99, 10, 100] midScanExample.st)
            midScanExample.str 10 10).2.1).filter (fun b => b != 10) =
        [97, 98, 99, 100] :=
  have h := C18_scan_loses_no_data (feed [99, 10, 100] midScanExample.st)
    midScanExample.str 10 10 (by decide) (by decide) (by decide)
  ⟨by decide, by decide, (h.2.1 (by decide)).trans (by decide)⟩

/-- C19 (amended). Returned scan length.  In every state reached from program
start through the public interface and interrupts (installs, uninstalls and
re-installs included) by callers that pass the same `*len = len` on every
`hal_uart_get_bytes_until` call, the scan cursor is at most `len`, and a call that
returns `HAL_NO_ERROR` writes back a length that is at most `len`.  In every
state and for every `*len`, a call that returns `HAL_NO_ERROR` writes back the
cursor it found on entry, and a call stores nothing at an index of the caller's
array that is `*len` or more. -/
theorem C19_scan_length_bound (F_CPU len : Nat) (calls : List ApiCall) (s : State)
    (hlen : ∀ c ∈ calls, c.usesLen len)
    (hrun : runApi F_CPU calls State.boot = some s) :
    s.ind ≤ len ∧
      (∀ (str : List Byte) (d : Byte),
        (hal_uart_get_bytes_until s str len d).1 = HAL_NO_ERROR →
        (hal_uart_get_bytes_until s str len d).2.2.2 ≤ len) ∧
      (∀ (s0 : State) (str : List Byte) (l : Nat) (d : Byte),
        ((hal_uart_get_bytes_until s0 str l d).1 = HAL_NO_ERROR →
          (hal_uart_get_bytes_until s0 str l d).2.2.2 = s0.ind) ∧
        (hal_uart_get_bytes_until s0 str l d).2.2.1.length = str.length ∧
        ∀ i, l ≤ i → (hal_uart_get_bytes_until s0 str l d).2.2.1[i]? = str[i]?) := by
  have hind : s.ind ≤ len :=
    runApi_ind_le F_CPU len calls State.boot s hlen (Nat.zero_le _) hrun
  refine ⟨hind, fun str d h => ?_, fun s0 str l d => ?_⟩
  · rw [until_returns_cursor s str len d h]
    exact hind
  · exact ⟨until_returns_cursor s0 str l d, until_store_below s0 str l d⟩

theorem C19_scan_length_bound_witness :
    runApi 16000000
        [.lifecycle (.install true (echoConfig 50)), .activity (.isr 97),
          .activity (.isr 98), .activity (.get_bytes_until [0, 0] 2 10),
          .activity (.get_bytes_until [97, 0] 2 10), .lifecycle .uninstall,
          .lifecycle (.install true (echoConfig 3)), .activity (.isr 99)]
        State.boot =
        some (ISR_USART_RX 99 { echoInstalled 3 with ind := 2, live := 1 }) ∧
      (hal_uart_get_bytes_until (ISR_USART_RX 99 { echoInstalled 3 with ind := 2, live := 1 })
        [97, 98] 2 10).1 = HAL_NO_ERROR ∧
      (hal_uart_get_bytes_until (ISR_USART_RX 99 { echoInstalled 3 with ind := 2, live := 1 })
        [97, 98] 2 10).2.2.2 ≤ 2 :=
  have h := C19_scan_length_bound 16000000 2
    [.lifecycle (.install true (echoConfig 50)), .activity (.isr 97),
      .activity (.isr 98), .activity (.get_bytes_until [0, 0] 2 10),
      .activity (.get_bytes_until [97, 0] 2 10), .lifecycle .uninstall,
      .lifecycle (.install true (echoConfig 3)), .activity (.isr 99)]
    (ISR_USART_RX 99 { echoInstalled 3 with ind := 2, live := 1 }) (by decide) (by decide)
  ⟨by decide, by decide, h.2.1 [97, 98] 10 (by decide)⟩

/-- C19 as stated fails for a caller that passes a smaller `*len` than before:
after an install, three bytes received and two calls with `*len = 10` that copy
two bytes (cursor 2), a call with `*len = 1` returns `HAL_NO_ERROR` and writes
back the length 2, which is more than the 1 supplied. -/
theorem C19_smaller_len_returns_more :
    runApi 16000000
        [.lifecycle (.install true (echoConfig 50)), .activity (.isr 97),
          .activity (.isr 98), .activity (.isr 99),
          .activity (.get_bytes_until [0, 0, 0] 10 10),
          .activity (.get_bytes_until [97, 0, 0] 10 10)]
        State.boot = some (ISR_USART_RX 99 midScanExample.st) ∧
      (hal_uart_get_bytes_until (ISR_USART_RX 99 midScanExample.st) [97, 98, 0] 1 10).1 =
        HAL_NO_ERROR ∧
      (hal_uart_get_bytes_until (ISR_USART_RX 99 midScanExample.st) [97, 98, 0] 1 10).2.2.2 =
        2 ∧
      ¬ (hal_uart_get_bytes_until (ISR_USART_RX 99 midScanExample.st)
        [97, 98, 0] 1 10).2.2.2 ≤ 1 := by
  decide

/-- C20 fails on the code.  A configuration with baud rate 0, capacity 10,
`EVEN_PARITY` and a successful allocation passes every check of
`hal_uart_driver_install` (the capacity is at most 200 and the parity is
recognised), and the call then evaluates the prescaler with the divisor
`_baud * 16 = 0`: it is not rejected before the division. -/
theorem C20_zero_baud_reaches_division :
    (10 : Nat) ≤ MAX_HAL_UART_BUFF_SIZE ∧
      (parity_ucsrc 6 EVEN_PARITY).isSome = true ∧
      ((0 : Nat) * 16) % 4294967296 = 0 ∧
      BAUD_PRESCALER 16000000
        { _baud := 0, _parity := EVEN_PARITY, _stopBits := 2, _buffSize := 10 } = none ∧
      hal_uart_driver_install 16000000 true
        { _baud := 0, _parity := EVEN_PARITY, _stopBits := 2, _buffSize := 10 }
        State.boot = none ∧
      ¬ ∃ s1, hal_uart_driver_install 16000000 true
        { _baud := 0, _parity := EVEN_PARITY, _stopBits := 2, _buffSize := 10 }
        State.boot = some (HAL_INV_PARAMS, s1) := by
  refine ⟨by decide, by decide, by decide, by decide, by decide, ?_⟩
  rintro ⟨s1, h⟩
  have e : hal_uart_driver_install 16000000 true
      { _baud := 0, _parity := EVEN_PARITY, _stopBits := 2, _buffSize := 10 }
      State.boot = none := by decide
  rw [e] at h
  exact absurd h (by simp)

end HalUart
